import Mathlib

/-!
Shallow embedding of the retrieval pipeline of src/search.go (package main of the
search-engine repository): text normalization, inverted indexing, TF-IDF weighting,
cosine/Jaccard scoring, snippet generation and the search driver, together with
theorems checking the specification claims against this embedding.

Modelling conventions:
- Go strings are modelled as lists of characters (`Str`); Go byte length coincides
  with list length on ASCII text, which is the character set the Go regexps
  (`\w`, `\s`, `\b`, `\d`) are defined over in RE2.
- Go float64 values are modelled as real numbers; math.Log and math.Sqrt become
  Real.log and Real.sqrt.
- Go maps are modelled as association lists built in insertion order; the claims
  checked here do not depend on Go's randomized map iteration order.
- Go regexp replacements are modelled by recursive functions implementing RE2's
  leftmost-first match semantics for the concrete patterns appearing in the source;
  each model carries a comment naming its pattern.
-/

set_option maxHeartbeats 1000000
set_option maxRecDepth 40000

namespace SearchEngine

/-- Go strings modelled as lists of characters. -/
abbrev Str := List Char

/-- Coercion from a Lean string literal to the character-list model. -/
def str (s : String) : Str := s.data

/-- Character class of the Go regexp `\w` (ASCII letters, digits, underscore). -/
def reWordChar (c : Char) : Bool := c.isAlphanum || c == '_'

/-- Character class of the Go regexp `\s` (space, tab, newline, form feed, carriage return). -/
def reSpace (c : Char) : Bool :=
  c == ' ' || c == '\t' || c == '\n' || c == '\x0c' || c == '\r'

/-- Whitespace recognized by Go strings.Fields and strings.TrimSpace
(ASCII fragment of unicode.IsSpace: space, tab, newline, vertical tab, form feed,
carriage return). -/
def goSpace (c : Char) : Bool :=
  c == ' ' || c == '\t' || c == '\n' || c == '\x0b' || c == '\x0c' || c == '\r'

/-- Model of tp.punctuation.ReplaceAllString(text, " ") for the pattern
escaped as open-bracket caret backslash-w backslash-s close-bracket in search.go
line 74: every character that is neither a word character nor regexp whitespace
is replaced by a single space. -/
def replacePunct (s : Str) : Str :=
  s.map (fun c => if reWordChar c || reSpace c then c else ' ')

/-- Fuel-indexed worker for replNum; the fuel argument only makes the recursion
structural and never runs out when it starts at the length of the string. -/
def replNumF : Nat → Bool → Str → Str
  | 0, _, s => s
  | _ + 1, _, [] => []
  | fuel + 1, prev, c :: cs =>
    if c.isDigit && !prev then
      match (c :: cs).dropWhile Char.isDigit with
      | [] => [' ']
      | d :: ds =>
        if reWordChar d then
          (c :: cs).takeWhile Char.isDigit ++ replNumF fuel true (d :: ds)
        else ' ' :: replNumF fuel true (d :: ds)
    else c :: replNumF fuel (reWordChar c) cs

/-- Model of tp.numbers.ReplaceAllString(text, " ") for the Go pattern
backslash-b backslash-d plus backslash-b (search.go line 75): a maximal digit run
whose left neighbour is not a word character (tracked by `prev`) and whose right
neighbour is not a word character is a match and is replaced by one space; runs
touching a word character on either side are not matched, because a digit run
cannot contain a word boundary and shortening the greedy run never creates one. -/
def replNum (prev : Bool) (s : Str) : Str := replNumF s.length prev s

theorem dropWhile_cons_length_lt {p : Char → Bool} {c : Char} {cs : Str} (h : p c) :
    ((c :: cs).dropWhile p).length ≤ cs.length := by
  have h2 : (c :: cs).dropWhile p = cs.dropWhile p := by
    simp only [List.dropWhile_cons]
    simp_all
  rw [h2]
  exact (List.dropWhile_sublist _).length_le

theorem replNumF_fuel (f g : Nat) (prev : Bool) (s : Str)
    (hf : s.length ≤ f) (hg : s.length ≤ g) :
    replNumF f prev s = replNumF g prev s := by
  induction f generalizing g prev s with
  | zero =>
    have : s = [] := List.eq_nil_of_length_eq_zero (by omega)
    subst this
    cases g <;> rfl
  | succ f ih =>
    cases s with
    | nil => cases g <;> rfl
    | cons c cs =>
      cases g with
      | zero => simp at hg
      | succ g =>
        simp only [replNumF]
        by_cases hc : (c.isDigit && !prev) = true
        · simp only [if_pos hc]
          have hcd : c.isDigit := by
            rcases (Bool.and_eq_true _ _).mp hc with ⟨h1, _⟩
            exact h1
          have hlen : ((c :: cs).dropWhile Char.isDigit).length ≤ cs.length :=
            dropWhile_cons_length_lt hcd
          match hdrop : (c :: cs).dropWhile Char.isDigit with
          | [] => rfl
          | d :: ds =>
            rw [hdrop] at hlen
            simp only [List.length_cons] at hf hg
            by_cases hw : reWordChar d = true
            · simp only [if_pos hw, ih g true (d :: ds) (by omega) (by omega)]
            · simp only [if_neg hw, ih g true (d :: ds) (by omega) (by omega)]
        · simp only [if_neg hc]
          simp only [List.length_cons] at hf hg
          rw [ih g (reWordChar c) cs (by omega) (by omega)]

theorem replNum_nil (prev : Bool) : replNum prev [] = [] := rfl

theorem replNum_cons (prev : Bool) (c : Char) (cs : Str) :
    replNum prev (c :: cs) =
      if c.isDigit && !prev then
        match (c :: cs).dropWhile Char.isDigit with
        | [] => [' ']
        | d :: ds =>
          if reWordChar d then
            (c :: cs).takeWhile Char.isDigit ++ replNum true (d :: ds)
          else ' ' :: replNum true (d :: ds)
      else c :: replNum (reWordChar c) cs := by
  show replNumF (cs.length + 1) prev (c :: cs) = _
  simp only [replNumF]
  by_cases hc : (c.isDigit && !prev) = true
  · simp only [if_pos hc]
    have hcd : c.isDigit := by
      rcases (Bool.and_eq_true _ _).mp hc with ⟨h1, _⟩
      exact h1
    have hlen : ((c :: cs).dropWhile Char.isDigit).length ≤ cs.length :=
      dropWhile_cons_length_lt hcd
    match hdrop : (c :: cs).dropWhile Char.isDigit with
    | [] => rfl
    | d :: ds =>
      rw [hdrop] at hlen
      by_cases hw : reWordChar d = true
      · simp only [if_pos hw, replNum,
          replNumF_fuel cs.length (d :: ds).length true (d :: ds) (by omega) (by omega)]
      · simp only [if_neg hw, replNum,
          replNumF_fuel cs.length (d :: ds).length true (d :: ds) (by omega) (by omega)]
  · simp only [if_neg hc, replNum,
      replNumF_fuel cs.length cs.length (reWordChar c) cs (by omega) (by omega)]

/-- Model of strings.TrimSpace. -/
def trimSpace (s : Str) : Str :=
  ((s.dropWhile goSpace).reverse.dropWhile goSpace).reverse

/-- Fuel-indexed worker for fields. -/
def fieldsF : Nat → Str → List Str
  | 0, _ => []
  | _ + 1, [] => []
  | fuel + 1, c :: cs =>
    if goSpace c then fieldsF fuel cs
    else
      (c :: cs).takeWhile (fun x => !goSpace x) ::
        fieldsF fuel ((c :: cs).dropWhile (fun x => !goSpace x))

/-- Model of strings.Fields: maximal runs of non-whitespace characters. -/
def fields (s : Str) : List Str := fieldsF s.length s

theorem fieldsF_fuel (f g : Nat) (s : Str) (hf : s.length ≤ f) (hg : s.length ≤ g) :
    fieldsF f s = fieldsF g s := by
  induction f generalizing g s with
  | zero =>
    have : s = [] := List.eq_nil_of_length_eq_zero (by omega)
    subst this
    cases g <;> rfl
  | succ f ih =>
    cases s with
    | nil => cases g <;> rfl
    | cons c cs =>
      cases g with
      | zero => simp at hg
      | succ g =>
        simp only [fieldsF]
        simp only [List.length_cons] at hf hg
        by_cases hc : goSpace c = true
        · simp only [if_pos hc, ih g cs (by omega) (by omega)]
        · have hlen : ((c :: cs).dropWhile (fun x => !goSpace x)).length ≤ cs.length :=
            dropWhile_cons_length_lt (by simp [hc])
          simp only [if_neg hc,
            ih g ((c :: cs).dropWhile (fun x => !goSpace x)) (by omega) (by omega)]

theorem fields_nil : fields [] = [] := rfl

theorem fields_cons (c : Char) (cs : Str) :
    fields (c :: cs) =
      if goSpace c then fields cs
      else
        (c :: cs).takeWhile (fun x => !goSpace x) ::
          fields ((c :: cs).dropWhile (fun x => !goSpace x)) := by
  show fieldsF (cs.length + 1) (c :: cs) = _
  simp only [fieldsF]
  by_cases hc : goSpace c = true
  · simp only [if_pos hc, fields, fieldsF_fuel cs.length cs.length cs (by omega) (by omega)]
  · have hlen : ((c :: cs).dropWhile (fun x => !goSpace x)).length ≤ cs.length :=
      dropWhile_cons_length_lt (by simp [hc])
    simp only [if_neg hc, fields,
      fieldsF_fuel cs.length ((c :: cs).dropWhile (fun x => !goSpace x)).length
        ((c :: cs).dropWhile (fun x => !goSpace x)) (by omega) (by omega)]

/-- Model of strings.ToLower on a single character (ASCII). -/
def toLowerChar (c : Char) : Char := c.toLower

/-- Model of strings.ToLower on a string (ASCII). -/
def toLowerStr (w : Str) : Str := w.map toLowerChar

/-- The stopword set of initializeStopWords (search.go lines 79-114). -/
def stopWords : List Str :=
  [str "yang", str "dan", str "atau", str "tetapi", str "namun",
   str "melainkan", str "sedangkan", str "sebaliknya",
   str "di", str "ke", str "dari", str "dalam", str "kepada",
   str "pada", str "oleh", str "untuk", str "bagi", str "tentang",
   str "menurut", str "seperti", str "sebagai",
   str "ini", str "itu", str "tersebut", str "berikut",
   str "saya", str "anda", str "dia", str "mereka", str "kita",
   str "kami", str "kamu", str "ia", str "beliau",
   str "akan", str "sudah", str "telah", str "sedang", str "masih",
   str "hendak", str "bisa", str "dapat", str "bukan", str "jangan",
   str "sangat", str "hanya", str "juga", str "saja", str "lagi",
   str "sekarang", str "yakni", str "yaitu",
   str "apa", str "siapa", str "dimana", str "kapan", str "kenapa",
   str "bagaimana", str "mengapa",
   str "satu", str "dua", str "tiga", str "empat", str "lima",
   str "enam", str "tujuh", str "delapan", str "sembilan", str "sepuluh",
   str "pertama", str "kedua", str "ketiga", str "keempat", str "kelima"]

/-- Model of (tp *TextProcessor) removePunctuationsAndNumbers (search.go lines 118-122). -/
def removePunctuationsAndNumbers (text : Str) : Str :=
  trimSpace (replNum false (replacePunct text))

/-- Model of (tp *TextProcessor) removeStopwords (search.go lines 125-134):
split on whitespace and keep the words whose lowercase form is not a stopword. -/
def removeStopwords (text : Str) : List Str :=
  (fields text).filter (fun w => !(stopWords.contains (toLowerStr w)))

/-- Model of (tp *TextProcessor) caseFolding (search.go lines 137-143). -/
def caseFolding (tokens : List Str) : List Str :=
  tokens.map toLowerStr

/-- The global prefix list of search.go lines 55-59, in source order. -/
def prefixList : List Str :=
  [str "me", str "pe", str "be", str "te", str "di", str "ke", str "se",
   str "ber", str "per", str "ter", str "mem", str "pem", str "pen",
   str "meng", str "peng", str "meny", str "peny"]

/-- The global suffix list of search.go lines 60-63, in source order. -/
def suffixList : List Str :=
  [str "kan", str "an", str "i", str "lah", str "kah", str "nya", str "ku", str "mu",
   str "wan", str "wati", str "isme"]

/-- Model of the suffix loop of stem (search.go lines 154-159): scan the list and
strip the first suffix that matches, then stop. -/
def stripSuffixLoop : List Str → Str → Str
  | [], w => w
  | s :: rest, w =>
    if s <:+ w then w.take (w.length - s.length) else stripSuffixLoop rest w

/-- Model of the prefix loop of stem (search.go lines 162-170): scan the list;
at a matching prefix, strip it and stop only when at least 4 characters remain,
otherwise keep scanning with the word unchanged. -/
def stripPrefixLoop : List Str → Str → Str
  | [], w => w
  | p :: rest, w =>
    if p <+: w then
      if 4 ≤ (w.drop p.length).length then w.drop p.length else stripPrefixLoop rest w
    else stripPrefixLoop rest w

/-- Model of (tp *TextProcessor) stem (search.go lines 146-177). -/
def stem (word : Str) : Str :=
  if word.length < 4 then word
  else
    let w1 := stripSuffixLoop suffixList word
    let w2 := stripPrefixLoop prefixList w1
    if w2.length < 3 then word else w2

/-- Model of (tp *TextProcessor) stemming (search.go lines 179-185). -/
def stemming (tokens : List Str) : List Str :=
  tokens.map stem

/-- Model of (tp *TextProcessor) ProcessText (search.go lines 193-208). -/
def ProcessText (text : Str) : List Str :=
  stemming (caseFolding (removeStopwords (removePunctuationsAndNumbers text)))

/-- Model of strings.Join(tokens, " "). -/
def joinSpace (ts : List Str) : Str :=
  (List.intersperse [' '] ts).flatten

/-! Claim-side definitions for C1, written after the wording of the spec sentence
on stemming, to be compared with the source model stem. -/

/-- First element of the list that is a suffix of the word, in list order. -/
def firstMatchingSuf : List Str → Str → Option Str
  | [], _ => none
  | s :: rest, w => if s <:+ w then some s else firstMatchingSuf rest w

/-- First element of the list that is a prefix of the word, in list order. -/
def firstMatchingPre : List Str → Str → Option Str
  | [], _ => none
  | p :: rest, w => if p <+: w then some p else firstMatchingPre rest w

/-- Stemmer as worded by the claim C1: a token shorter than 4 characters is
returned unchanged; otherwise the first matching suffix of the ordered list is
stripped; then the first matching prefix of the ordered list is stripped only if
the remaining stem has length at least 4; if the final stem is shorter than 3
characters the original token is returned. -/
def stemSpec (word : Str) : Str :=
  if word.length < 4 then word
  else
    let w1 := match firstMatchingSuf suffixList word with
      | none => word
      | some s => word.take (word.length - s.length)
    let w2 := match firstMatchingPre prefixList w1 with
      | none => w1
      | some p => if 4 ≤ (w1.drop p.length).length then w1.drop p.length else w1
    if w2.length < 3 then word else w2

theorem stripSuffixLoop_eq_first (l : List Str) (w : Str) :
    stripSuffixLoop l w =
      match firstMatchingSuf l w with
      | none => w
      | some s => w.take (w.length - s.length) := by
  induction l with
  | nil => rfl
  | cons s rest ih =>
    by_cases h : s <:+ w
    · simp [stripSuffixLoop, firstMatchingSuf, h]
    · simp [stripSuffixLoop, firstMatchingSuf, h, ih]

theorem stripPrefixLoop_of_all_small (l : List Str) (w : Str)
    (h : ∀ q ∈ l, q <+: w → (w.drop q.length).length < 4) :
    stripPrefixLoop l w = w := by
  induction l with
  | nil => rfl
  | cons p rest ih =>
    by_cases hp : p <+: w
    · have hsmall := h p (List.mem_cons_self p rest) hp
      have : ¬ (4 ≤ (w.drop p.length).length) := by omega
      simp only [stripPrefixLoop, if_pos hp, if_neg this]
      exact ih (fun q hq hqw => h q (List.mem_cons_of_mem p hq) hqw)
    · simp only [stripPrefixLoop, if_neg hp]
      exact ih (fun q hq hqw => h q (List.mem_cons_of_mem p hq) hqw)

theorem stripPrefixLoop_eq_first (l : List Str) (w : Str)
    (hsort : l.Pairwise (fun a b => a.length ≤ b.length)) :
    stripPrefixLoop l w =
      match firstMatchingPre l w with
      | none => w
      | some p => if 4 ≤ (w.drop p.length).length then w.drop p.length else w := by
  induction l with
  | nil => rfl
  | cons p rest ih =>
    rcases List.pairwise_cons.mp hsort with ⟨hhead, htail⟩
    by_cases hp : p <+: w
    · by_cases hlen : 4 ≤ (w.drop p.length).length
      · have hlen' : 4 ≤ w.length - p.length := by simpa using hlen
        simp [stripPrefixLoop, firstMatchingPre, hp, hlen, hlen']
      · have hspl : stripPrefixLoop rest w = w :=
          stripPrefixLoop_of_all_small rest w (by
            intro q hq hqw
            have hle : p.length ≤ q.length := hhead q hq
            simp only [List.length_drop] at *
            omega)
        simp [stripPrefixLoop, firstMatchingPre, hp, hlen, hspl]
    · simp [stripPrefixLoop, firstMatchingPre, hp, ih htail]

theorem prefixList_length_sorted :
    prefixList.Pairwise (fun a b => a.length ≤ b.length) := by decide

/-- C1: the stemmer behaves exactly as specified: a token shorter than 4
characters is returned unchanged; otherwise the ordered suffix list is scanned
and the first matching suffix is stripped (not the longest); then the ordered
prefix list is scanned and the first matching prefix is stripped only if the
remaining stem has length at least 4; if the final stem is shorter than 3
characters the stemming is discarded and the original token is returned. -/
theorem stem_matches_spec (w : Str) : stem w = stemSpec w := by
  unfold stem stemSpec
  simp only [stripSuffixLoop_eq_first,
    stripPrefixLoop_eq_first _ _ prefixList_length_sorted]

/-- C10: for a nonempty token, stem returns a nonempty string that is either
the original token or a string of length at least 3. -/
theorem stem_nonempty (w : Str) (h : w ≠ []) :
    stem w ≠ [] ∧ (stem w = w ∨ 3 ≤ (stem w).length) := by
  unfold stem
  by_cases hlen : w.length < 4
  · simp only [if_pos hlen]
    exact ⟨h, Or.inl (by trivial)⟩
  · simp only [if_neg hlen]
    by_cases h3 : (stripPrefixLoop prefixList (stripSuffixLoop suffixList w)).length < 3
    · simp only [if_pos h3]
      exact ⟨h, Or.inl (by trivial)⟩
    · simp only [if_neg h3]
      constructor
      · intro hnil
        rw [hnil] at h3
        simp at h3
      · right; omega

theorem stem_nonempty_witness :
    str "mematikan" ≠ [] ∧
      (stem (str "mematikan") ≠ [] ∧
        (stem (str "mematikan") = str "mematikan" ∨ 3 ≤ (stem (str "mematikan")).length)) :=
  ⟨by decide, stem_nonempty (str "mematikan") (by decide)⟩

/-! Claim-side definitions for C8. -/

/-- Modelled from the wording of claim C8: replace every character that is not a
letter, digit, or whitespace with a space. Unlike the source pattern, this also
replaces the underscore, which the Go word-character class keeps. -/
def replacePunctClaim (s : Str) : Str :=
  s.map (fun c => if c.isAlphanum || reSpace c then c else ' ')

/-- First normalization step as worded by claim C8 (punctuation pass, standalone
numeric token pass, trim). -/
def step1Claim (s : Str) : Str :=
  trimSpace (replNum false (replacePunctClaim s))

/-- C8 counterexample: on the text "a_b" the source keeps the underscore because
the Go class of word characters contains it, while the claim as stated replaces
every character that is not a letter, digit, or whitespace, hence the underscore
as well. -/
theorem removePunctuationsAndNumbers_underscore :
    removePunctuationsAndNumbers (str "a_b") = str "a_b" ∧
      step1Claim (str "a_b") = str "a b" ∧
      removePunctuationsAndNumbers (str "a_b") ≠ step1Claim (str "a_b") := by
  refine ⟨by decide, by decide, by decide⟩

/-- Claim-side (amended) punctuation pass: every character that is not a letter,
digit, underscore, or regexp whitespace becomes a space. -/
def replacePunctAmended (s : Str) : Str :=
  s.map (fun c => if c.isAlphanum || c == '_' || reSpace c then c else ' ')

/-- Fuel-indexed worker for replaceNumericTokens. -/
def replaceNumericTokensF : Nat → Str → Str
  | 0, s => s
  | _ + 1, [] => []
  | fuel + 1, c :: cs =>
    if reWordChar c then
      (if ((c :: cs).takeWhile reWordChar).all Char.isDigit then [' ']
       else (c :: cs).takeWhile reWordChar) ++
        replaceNumericTokensF fuel ((c :: cs).dropWhile reWordChar)
    else c :: replaceNumericTokensF fuel cs

/-- Claim-side (amended) standalone-numeric-token pass: every maximal run of word
characters consisting solely of digits is replaced by a single space. -/
def replaceNumericTokens (s : Str) : Str := replaceNumericTokensF s.length s

theorem replaceNumericTokensF_fuel (f g : Nat) (s : Str)
    (hf : s.length ≤ f) (hg : s.length ≤ g) :
    replaceNumericTokensF f s = replaceNumericTokensF g s := by
  induction f generalizing g s with
  | zero =>
    have : s = [] := List.eq_nil_of_length_eq_zero (by omega)
    subst this
    cases g <;> rfl
  | succ f ih =>
    cases s with
    | nil => cases g <;> rfl
    | cons c cs =>
      cases g with
      | zero => simp at hg
      | succ g =>
        simp only [replaceNumericTokensF]
        simp only [List.length_cons] at hf hg
        by_cases hc : reWordChar c = true
        · have hlen : ((c :: cs).dropWhile reWordChar).length ≤ cs.length :=
            dropWhile_cons_length_lt hc
          simp only [if_pos hc,
            ih g ((c :: cs).dropWhile reWordChar) (by omega) (by omega)]
        · simp only [if_neg hc, ih g cs (by omega) (by omega)]

theorem replaceNumericTokens_nil : replaceNumericTokens [] = [] := rfl

theorem replaceNumericTokens_cons (c : Char) (cs : Str) :
    replaceNumericTokens (c :: cs) =
      if reWordChar c then
        (if ((c :: cs).takeWhile reWordChar).all Char.isDigit then [' ']
         else (c :: cs).takeWhile reWordChar) ++
          replaceNumericTokens ((c :: cs).dropWhile reWordChar)
      else c :: replaceNumericTokens cs := by
  show replaceNumericTokensF (cs.length + 1) (c :: cs) = _
  simp only [replaceNumericTokensF]
  by_cases hc : reWordChar c = true
  · have hlen : ((c :: cs).dropWhile reWordChar).length ≤ cs.length :=
      dropWhile_cons_length_lt hc
    simp only [if_pos hc, replaceNumericTokens,
      replaceNumericTokensF_fuel cs.length ((c :: cs).dropWhile reWordChar).length
        ((c :: cs).dropWhile reWordChar) (by omega) (by omega)]
  · simp only [if_neg hc, replaceNumericTokens,
      replaceNumericTokensF_fuel cs.length cs.length cs (by omega) (by omega)]

/-- Continuation of replaceNumericTokens inside a word-character run that is known
to touch a word character on its left; such a continuation is never standalone. -/
def rntAux : Str → Str
  | [] => []
  | c :: cs => if reWordChar c then c :: rntAux cs else c :: replaceNumericTokens cs

theorem takeWhile_append_all {p : Char → Bool} {a : Str} (b : Str)
    (h : ∀ x ∈ a, p x = true) : (a ++ b).takeWhile p = a ++ b.takeWhile p := by
  induction a with
  | nil => simp
  | cons c cs ih =>
    have hc := h c (List.mem_cons_self c cs)
    simp only [List.cons_append, List.takeWhile_cons, hc, if_true]
    rw [ih (fun x hx => h x (List.mem_cons_of_mem c hx))]

theorem dropWhile_append_all {p : Char → Bool} {a : Str} (b : Str)
    (h : ∀ x ∈ a, p x = true) : (a ++ b).dropWhile p = b.dropWhile p := by
  induction a with
  | nil => simp
  | cons c cs ih =>
    have hc := h c (List.mem_cons_self c cs)
    simp only [List.cons_append, List.dropWhile_cons, hc, if_true]
    exact ih (fun x hx => h x (List.mem_cons_of_mem c hx))

theorem dropWhile_cons_head_false {p : Char → Bool} {d : Char} {ds : Str} :
    ∀ {l : Str}, l.dropWhile p = d :: ds → p d = false := by
  intro l
  induction l with
  | nil => intro h; simp at h
  | cons c cs ih =>
    intro h
    rw [List.dropWhile_cons] at h
    by_cases hc : p c = true
    · rw [if_pos hc] at h
      exact ih h
    · rw [if_neg hc] at h
      cases h
      simpa using hc

theorem rntAux_eq (s : Str) :
    rntAux s = s.takeWhile reWordChar ++ replaceNumericTokens (s.dropWhile reWordChar) := by
  induction s with
  | nil => rfl
  | cons c cs ih =>
    by_cases hc : reWordChar c = true
    · simp only [rntAux, if_pos hc, List.takeWhile_cons, List.dropWhile_cons, hc, if_true, ih]
      rfl
    · simp only [rntAux, if_neg hc, List.takeWhile_cons, List.dropWhile_cons, hc]
      simp only [Bool.false_eq_true, if_false, List.nil_append]
      rw [replaceNumericTokens_cons, if_neg hc]

theorem isDigit_reWordChar {c : Char} (h : c.isDigit = true) : reWordChar c = true := by
  simp [reWordChar, Char.isAlphanum, h]

theorem replNum_eq_claim :
    ∀ n (s : Str), s.length ≤ n →
      replNum false s = replaceNumericTokens s ∧ replNum true s = rntAux s := by
  intro n
  induction n with
  | zero =>
    intro s hs
    have : s = [] := List.eq_nil_of_length_eq_zero (by omega)
    subst this
    exact ⟨rfl, rfl⟩
  | succ m ih =>
    intro s hs
    cases s with
    | nil => exact ⟨rfl, rfl⟩
    | cons c cs =>
      simp only [List.length_cons] at hs
      constructor
      · -- replNum false (c :: cs) = replaceNumericTokens (c :: cs)
        rw [replNum_cons, replaceNumericTokens_cons]
        by_cases hd : c.isDigit = true
        · have hw : reWordChar c = true := isDigit_reWordChar hd
          simp only [hd, Bool.not_false, Bool.and_true, if_true, if_pos hw]
          have hDall : ∀ x ∈ (c :: cs).takeWhile Char.isDigit, Char.isDigit x = true :=
            fun x hx => List.mem_takeWhile_imp hx
          have hDword : ∀ x ∈ (c :: cs).takeWhile Char.isDigit, reWordChar x = true :=
            fun x hx => isDigit_reWordChar (hDall x hx)
          have hsplit := List.takeWhile_append_dropWhile (p := Char.isDigit) (l := c :: cs)
          match hdrop : (c :: cs).dropWhile Char.isDigit with
          | [] =>
            have hall : ∀ x ∈ c :: cs, Char.isDigit x = true :=
              List.dropWhile_eq_nil_iff.mp hdrop
            have htake : (c :: cs).takeWhile reWordChar = c :: cs := by
              rw [List.takeWhile_eq_self_iff.mpr (fun x hx => isDigit_reWordChar (hall x hx))]
            have htaked : ((c :: cs).takeWhile reWordChar).all Char.isDigit = true := by
              rw [htake]
              exact List.all_eq_true.mpr hall
            have hdropw : (c :: cs).dropWhile reWordChar = [] :=
              List.dropWhile_eq_nil_iff.mpr (fun x hx => isDigit_reWordChar (hall x hx))
            rw [htaked, hdropw, replaceNumericTokens_nil]
            simp
          | d :: ds =>
            have hdfalse : d.isDigit = false := dropWhile_cons_head_false hdrop
            rw [hdrop] at hsplit
            have hlen : (d :: ds).length ≤ m := by
              have := @dropWhile_cons_length_lt Char.isDigit _ cs hd
              rw [hdrop] at this
              omega
            have htakecc : (c :: cs).takeWhile reWordChar =
                (c :: cs).takeWhile Char.isDigit ++ (d :: ds).takeWhile reWordChar := by
              conv_lhs => rw [← hsplit]
              exact takeWhile_append_all _ hDword
            have hdropcc : (c :: cs).dropWhile reWordChar = (d :: ds).dropWhile reWordChar := by
              conv_lhs => rw [← hsplit]
              exact dropWhile_append_all _ hDword
            by_cases hwd : reWordChar d = true
            · simp only [if_pos hwd]
              have htaked : ((c :: cs).takeWhile reWordChar).all Char.isDigit = false := by
                rw [htakecc]
                have hdmem : d ∈ (c :: cs).takeWhile Char.isDigit ++ (d :: ds).takeWhile reWordChar := by
                  apply List.mem_append_right
                  rw [List.takeWhile_cons]
                  simp [hwd]
                apply Bool.eq_false_iff.mpr
                intro hcontra
                have := List.all_eq_true.mp hcontra d hdmem
                rw [hdfalse] at this
                exact Bool.false_ne_true this
              rw [htaked]
              simp only [Bool.false_eq_true, if_false]
              rw [(ih (d :: ds) hlen).2, rntAux_eq, htakecc, hdropcc, List.append_assoc]
            · simp only [if_neg hwd]
              have htwdd : (d :: ds).takeWhile reWordChar = [] := by
                rw [List.takeWhile_cons]
                simp [hwd]
              have htaked : ((c :: cs).takeWhile reWordChar).all Char.isDigit = true := by
                rw [htakecc, htwdd, List.append_nil]
                exact List.all_eq_true.mpr hDall
              rw [htaked]
              simp only [if_pos trivial]
              have hdropdd : (d :: ds).dropWhile reWordChar = d :: ds := by
                rw [List.dropWhile_cons]
                simp [hwd]
              rw [(ih (d :: ds) hlen).2, hdropcc, hdropdd]
              have : rntAux (d :: ds) = d :: replaceNumericTokens ds := by
                simp [rntAux, hwd]
              rw [this, replaceNumericTokens_cons, if_neg hwd]
              rfl
        · -- c is not a digit
          simp only [hd]
          simp only [Bool.false_and, Bool.false_eq_true, if_false]
          by_cases hw : reWordChar c = true
          · simp only [if_pos hw, hw]
            have htaked : ((c :: cs).takeWhile reWordChar).all Char.isDigit = false := by
              have htw : (c :: cs).takeWhile reWordChar = c :: cs.takeWhile reWordChar := by
                rw [List.takeWhile_cons]
                simp [hw]
              rw [htw]
              apply Bool.eq_false_iff.mpr
              intro hcontra
              have := List.all_eq_true.mp hcontra c (List.mem_cons_self c _)
              exact hd this
            rw [htaked]
            simp only [Bool.false_eq_true, if_false]
            rw [(ih cs (by omega)).2, rntAux_eq]
            simp only [List.takeWhile_cons, List.dropWhile_cons, hw, if_true]
            rfl
          · simp only [if_neg hw, hw]
            simp only [Bool.false_eq_true, if_false]
            rw [(ih cs (by omega)).1]
      · -- replNum true (c :: cs) = rntAux (c :: cs)
        rw [replNum_cons]
        simp only [Bool.not_true, Bool.and_false, Bool.false_eq_true, if_false]
        by_cases hw : reWordChar c = true
        · have h2 := (ih cs (by omega)).2
          simp [rntAux, hw, h2]
        · have h1 := (ih cs (by omega)).1
          simp [rntAux, hw, h1]

/-- C8 (amended): the first normalization step replaces every character that is
not a letter, digit, underscore, or regexp whitespace with a space, separately
replaces every standalone numeric token (a maximal word-character run consisting
solely of digits) with a single space, and trims surrounding whitespace. -/
theorem removePunctuationsAndNumbers_amended (text : Str) :
    removePunctuationsAndNumbers text =
      trimSpace (replaceNumericTokens (replacePunctAmended text)) := by
  have h1 : replacePunctAmended text = replacePunct text := by
    simp [replacePunctAmended, replacePunct, reWordChar, Bool.or_assoc]
  rw [h1]
  unfold removePunctuationsAndNumbers
  rw [(replNum_eq_claim (replacePunct text).length (replacePunct text) le_rfl).1]

/-- C5 counterexample: normalizing the text "mematikan" yields the single term
"mati" (suffix "kan" and prefix "me" stripped), but running the pipeline again
on its own space-joined output stems "mati" once more, stripping the suffix "i"
and yielding "mat". -/
theorem processText_not_idempotent :
    ProcessText (str "mematikan") = [str "mati"] ∧
      ProcessText (joinSpace (ProcessText (str "mematikan"))) = [str "mat"] ∧
      ProcessText (joinSpace (ProcessText (str "mematikan"))) ≠
        ProcessText (str "mematikan") := by
  refine ⟨by decide, by decide, by decide⟩

/-! Data model of the index (search.go lines 15-44) and the index builder. -/

/-- Model of the Article struct (search.go lines 15-19). -/
structure Article where
  title : Str
  content : Str
  url : Str
deriving DecidableEq, Repr

/-- Model of the Posting struct (search.go lines 40-44). -/
structure Posting where
  docID : Nat
  frequency : Nat
  positions : List Nat
deriving DecidableEq, Repr

/-- Model of the PostingList struct (search.go lines 35-38); the Go map from
docID to posting becomes an association list in insertion order. -/
structure PostingList where
  docFrequency : Nat
  postings : List (Nat × Posting)
deriving DecidableEq, Repr

/-- Model of the InvertedIndex struct (search.go lines 31-33); the Go map from
term to posting list becomes an association list in insertion order. -/
abbrev InvertedIndex := List (Str × PostingList)

/-- Lookup in an association list modelling a Go map read. -/
def alookup {α β : Type} [DecidableEq α] : List (α × β) → α → Option β
  | [], _ => none
  | (k, v) :: rest, a => if k = a then some v else alookup rest a

/-- Inner loop body of buildInvertedIndex for one posting map (search.go lines
233-244): create the posting for this docID on first sight, then increment its
frequency and append the position. -/
def updatePostings (docID pos : Nat) : List (Nat × Posting) → List (Nat × Posting)
  | [] => [(docID, { docID := docID, frequency := 1, positions := [pos] })]
  | (k, p) :: rest =>
    if k = docID then
      (k, { p with frequency := p.frequency + 1, positions := p.positions ++ [pos] }) :: rest
    else (k, p) :: updatePostings docID pos rest

/-- Effect of the inner loop body of buildInvertedIndex on one PostingList
(search.go lines 233-244): DocFrequency is incremented exactly when the docID
is seen for the first time. -/
def updatePostingList (docID pos : Nat) (pl : PostingList) : PostingList :=
  match alookup pl.postings docID with
  | none =>
    { docFrequency := pl.docFrequency + 1, postings := updatePostings docID pos pl.postings }
  | some _ =>
    { docFrequency := pl.docFrequency, postings := updatePostings docID pos pl.postings }

/-- Loop body of buildInvertedIndex for one token at one position (search.go
lines 225-245), including creation of the term's empty PostingList on first
sight (lines 226-231). -/
def addToken (docID pos : Nat) : InvertedIndex → Str → InvertedIndex
  | [], token => [(token, updatePostingList docID pos { docFrequency := 0, postings := [] })]
  | (t, pl) :: rest, token =>
    if t = token then (t, updatePostingList docID pos pl) :: rest
    else (t, pl) :: addToken docID pos rest token

/-- Position-tracking loop over the tokens of one document (search.go line 225). -/
def indexTokensFrom (docID : Nat) (pos : Nat) (idx : InvertedIndex) : List Str → InvertedIndex
  | [] => idx
  | tok :: rest => indexTokensFrom docID (pos + 1) (addToken docID pos idx tok) rest

/-- Document loop of buildInvertedIndex (search.go lines 221-246), with docID
equal to the position of the article in the collection. -/
def buildFrom (docID : Nat) (idx : InvertedIndex) : List Article → InvertedIndex
  | [] => idx
  | a :: rest =>
    buildFrom (docID + 1)
      (indexTokensFrom docID 0 idx (ProcessText (a.title ++ [' '] ++ a.content))) rest

/-- Model of buildInvertedIndex (search.go lines 218-249). -/
def buildInvertedIndex (articles : List Article) : InvertedIndex :=
  buildFrom 0 [] articles

theorem alookup_eq_none {α β : Type} [DecidableEq α] (l : List (α × β)) (a : α) :
    alookup l a = none ↔ a ∉ l.map Prod.fst := by
  induction l with
  | nil => simp [alookup]
  | cons kv rest ih =>
    obtain ⟨k, v⟩ := kv
    by_cases hk : k = a
    · subst hk
      simp [alookup]
    · simp [alookup, hk, ih, Ne.symm hk]

theorem alookup_mem {α β : Type} [DecidableEq α] {l : List (α × β)} {a : α} {b : β}
    (h : alookup l a = some b) : (a, b) ∈ l := by
  induction l with
  | nil => simp [alookup] at h
  | cons kv rest ih =>
    obtain ⟨k, v⟩ := kv
    by_cases hk : k = a
    · subst hk
      simp [alookup] at h
      simp [h]
    · simp only [alookup, if_neg hk] at h
      exact List.mem_cons_of_mem _ (ih h)

/-- Value stored for the key just written by updatePostings. -/
def bumpPosting (docID pos : Nat) : Option Posting → Posting
  | none => { docID := docID, frequency := 1, positions := [pos] }
  | some p => { p with frequency := p.frequency + 1, positions := p.positions ++ [pos] }

theorem alookup_updatePostings_self (docID pos : Nat) (ps : List (Nat × Posting)) :
    alookup (updatePostings docID pos ps) docID = some (bumpPosting docID pos (alookup ps docID)) := by
  induction ps with
  | nil => simp [updatePostings, alookup, bumpPosting]
  | cons kv rest ih =>
    obtain ⟨k, p⟩ := kv
    by_cases hk : k = docID
    · subst hk
      simp [updatePostings, alookup, bumpPosting]
    · simp [updatePostings, alookup, hk, ih]

theorem alookup_updatePostings_other (docID pos k : Nat) (ps : List (Nat × Posting))
    (h : k ≠ docID) :
    alookup (updatePostings docID pos ps) k = alookup ps k := by
  induction ps with
  | nil => simp [updatePostings, alookup, Ne.symm h]
  | cons kv rest ih =>
    obtain ⟨k0, p⟩ := kv
    by_cases hk : k0 = docID
    · subst hk
      simp [updatePostings, alookup, Ne.symm h]
    · by_cases hk2 : k0 = k
      · subst hk2
        simp [updatePostings, alookup, hk]
      · simp [updatePostings, alookup, hk, hk2, ih]

theorem keys_updatePostings_found (docID pos : Nat) (ps : List (Nat × Posting))
    (h : (alookup ps docID).isSome) :
    (updatePostings docID pos ps).map Prod.fst = ps.map Prod.fst := by
  induction ps with
  | nil => simp [alookup] at h
  | cons kv rest ih =>
    obtain ⟨k, p⟩ := kv
    by_cases hk : k = docID
    · subst hk
      simp [updatePostings]
    · simp only [alookup, if_neg hk] at h
      simp [updatePostings, hk, ih h]

theorem keys_updatePostings_new (docID pos : Nat) (ps : List (Nat × Posting))
    (h : alookup ps docID = none) :
    (updatePostings docID pos ps).map Prod.fst = ps.map Prod.fst ++ [docID] := by
  induction ps with
  | nil => simp [updatePostings]
  | cons kv rest ih =>
    obtain ⟨k, p⟩ := kv
    by_cases hk : k = docID
    · subst hk
      simp [alookup] at h
    · simp only [alookup, if_neg hk] at h
      simp [updatePostings, hk, ih h]

theorem length_updatePostings_found (docID pos : Nat) (ps : List (Nat × Posting))
    (h : (alookup ps docID).isSome) :
    (updatePostings docID pos ps).length = ps.length := by
  have := keys_updatePostings_found docID pos ps h
  have h1 := congrArg List.length this
  simpa using h1

theorem length_updatePostings_new (docID pos : Nat) (ps : List (Nat × Posting))
    (h : alookup ps docID = none) :
    (updatePostings docID pos ps).length = ps.length + 1 := by
  have := keys_updatePostings_new docID pos ps h
  have h1 := congrArg List.length this
  simpa using h1

theorem alookup_addToken_self (docID pos : Nat) (idx : InvertedIndex) (tok : Str) :
    alookup (addToken docID pos idx tok) tok =
      some (updatePostingList docID pos
        ((alookup idx tok).getD { docFrequency := 0, postings := [] })) := by
  induction idx with
  | nil => simp [addToken, alookup]
  | cons kv rest ih =>
    obtain ⟨t, pl⟩ := kv
    by_cases ht : t = tok
    · subst ht
      simp [addToken, alookup]
    · simp [addToken, alookup, ht, ih]

theorem alookup_addToken_other (docID pos : Nat) (idx : InvertedIndex) (tok t : Str)
    (h : t ≠ tok) :
    alookup (addToken docID pos idx tok) t = alookup idx t := by
  induction idx with
  | nil => simp [addToken, alookup, Ne.symm h]
  | cons kv rest ih =>
    obtain ⟨t0, pl⟩ := kv
    by_cases ht : t0 = tok
    · subst ht
      simp [addToken, alookup, Ne.symm h]
    · by_cases ht2 : t0 = t
      · subst ht2
        simp [addToken, alookup, ht]
      · simp [addToken, alookup, ht, ht2, ih]

theorem keys_addToken_found (docID pos : Nat) (idx : InvertedIndex) (tok : Str)
    (h : (alookup idx tok).isSome) :
    (addToken docID pos idx tok).map Prod.fst = idx.map Prod.fst := by
  induction idx with
  | nil => simp [alookup] at h
  | cons kv rest ih =>
    obtain ⟨t, pl⟩ := kv
    by_cases ht : t = tok
    · subst ht
      simp [addToken]
    · simp only [alookup, if_neg ht] at h
      simp [addToken, ht, ih h]

theorem keys_addToken_new (docID pos : Nat) (idx : InvertedIndex) (tok : Str)
    (h : alookup idx tok = none) :
    (addToken docID pos idx tok).map Prod.fst = idx.map Prod.fst ++ [tok] := by
  induction idx with
  | nil => simp [addToken]
  | cons kv rest ih =>
    obtain ⟨t, pl⟩ := kv
    by_cases ht : t = tok
    · subst ht
      simp [alookup] at h
    · simp only [alookup, if_neg ht] at h
      simp [addToken, ht, ih h]

/-- Well-formedness invariant carried through index construction: dbound strictly
bounds every recorded docID, and q bounds the positions recorded for the document
currently being processed, whose docID is dbound - 1. -/
def IdxInv (idx : InvertedIndex) (dbound q : Nat) : Prop :=
  (idx.map Prod.fst).Nodup ∧
  ∀ t pl, alookup idx t = some pl →
    (pl.postings.map Prod.fst).Nodup ∧
    pl.docFrequency = pl.postings.length ∧
    pl.postings ≠ [] ∧
    ∀ k p, alookup pl.postings k = some p →
      p.docID = k ∧ p.frequency = p.positions.length ∧
      p.positions.Chain' (· < ·) ∧ k < dbound ∧
      (k = dbound - 1 → ∀ x ∈ p.positions, x < q)

/-- Well-formedness of a finished index over n documents. -/
def IdxFinal (idx : InvertedIndex) (n : Nat) : Prop :=
  (idx.map Prod.fst).Nodup ∧
  ∀ t pl, alookup idx t = some pl →
    (pl.postings.map Prod.fst).Nodup ∧
    pl.docFrequency = pl.postings.length ∧
    pl.postings ≠ [] ∧
    ∀ k p, alookup pl.postings k = some p →
      p.docID = k ∧ p.frequency = p.positions.length ∧
      p.positions.Chain' (· < ·) ∧ k < n

theorem IdxInv.final {idx : InvertedIndex} {dbound q : Nat} (h : IdxInv idx dbound q) :
    IdxFinal idx dbound := by
  obtain ⟨hkeys, hrest⟩ := h
  refine ⟨hkeys, ?_⟩
  intro t pl hpl
  obtain ⟨h1, h2, h3, h4⟩ := hrest t pl hpl
  exact ⟨h1, h2, h3, fun k p hp => ⟨(h4 k p hp).1, (h4 k p hp).2.1, (h4 k p hp).2.2.1,
    (h4 k p hp).2.2.2.1⟩⟩

theorem IdxInv.next_doc {idx : InvertedIndex} {dbound q : Nat} (h : IdxInv idx dbound q) :
    IdxInv idx (dbound + 1) 0 := by
  obtain ⟨hkeys, hrest⟩ := h
  refine ⟨hkeys, ?_⟩
  intro t pl hpl
  obtain ⟨h1, h2, h3, h4⟩ := hrest t pl hpl
  refine ⟨h1, h2, h3, fun k p hp => ?_⟩
  obtain ⟨g1, g2, g3, g4, g5⟩ := h4 k p hp
  exact ⟨g1, g2, g3, by omega, fun hk => by omega⟩

theorem mem_of_getLast? {α : Type} {l : List α} {x : α} (h : x ∈ l.getLast?) : x ∈ l := by
  obtain ⟨hne, hx⟩ := List.mem_getLast?_eq_getLast h
  rw [hx]
  exact List.getLast_mem hne

theorem updatePostingList_inv (d q : Nat) (pl : PostingList)
    (hkeys : (pl.postings.map Prod.fst).Nodup)
    (hdf : pl.docFrequency = pl.postings.length)
    (hps : ∀ k p, alookup pl.postings k = some p →
      p.docID = k ∧ p.frequency = p.positions.length ∧
      p.positions.Chain' (· < ·) ∧ k < d + 1 ∧
      (k = d → ∀ x ∈ p.positions, x < q)) :
    ((updatePostingList d q pl).postings.map Prod.fst).Nodup ∧
    (updatePostingList d q pl).docFrequency = (updatePostingList d q pl).postings.length ∧
    (updatePostingList d q pl).postings ≠ [] ∧
    ∀ k p, alookup (updatePostingList d q pl).postings k = some p →
      p.docID = k ∧ p.frequency = p.positions.length ∧
      p.positions.Chain' (· < ·) ∧ k < d + 1 ∧
      (k = d → ∀ x ∈ p.positions, x < q + 1) := by
  cases hfound : alookup pl.postings d with
  | none =>
    have hkeys' : (updatePostings d q pl.postings).map Prod.fst =
        pl.postings.map Prod.fst ++ [d] := keys_updatePostings_new d q pl.postings hfound
    have hname : updatePostingList d q pl =
        { docFrequency := pl.docFrequency + 1, postings := updatePostings d q pl.postings } := by
      unfold updatePostingList
      rw [hfound]
    rw [hname]
    refine ⟨?_, ?_, ?_, ?_⟩
    · rw [hkeys']
      rw [List.nodup_append]
      refine ⟨hkeys, List.nodup_singleton d, ?_⟩
      intro x hx hx2
      simp at hx2
      rw [hx2] at hx
      exact (alookup_eq_none pl.postings d).mp hfound hx
    · simp only
      rw [length_updatePostings_new d q pl.postings hfound, hdf]
    · simp only
      intro hnil
      have := congrArg List.length (hkeys'.symm.trans (congrArg (List.map Prod.fst) hnil))
      simp at this
    · intro k p hp
      by_cases hk : k = d
      · subst hk
        rw [alookup_updatePostings_self] at hp
        rw [hfound] at hp
        simp only [bumpPosting] at hp
        cases hp
        refine ⟨rfl, rfl, List.chain'_singleton q, by omega, ?_⟩
        intro _ x hx
        simp at hx
        omega
      · simp only at hp
        rw [alookup_updatePostings_other d q k pl.postings hk] at hp
        obtain ⟨g1, g2, g3, g4, g5⟩ := hps k p hp
        exact ⟨g1, g2, g3, g4, fun hkd => absurd hkd hk⟩
  | some p0 =>
    have hsome : (alookup pl.postings d).isSome := by rw [hfound]; rfl
    have hkeys' : (updatePostings d q pl.postings).map Prod.fst = pl.postings.map Prod.fst :=
      keys_updatePostings_found d q pl.postings hsome
    have hname : updatePostingList d q pl =
        { docFrequency := pl.docFrequency, postings := updatePostings d q pl.postings } := by
      unfold updatePostingList
      rw [hfound]
    rw [hname]
    obtain ⟨g1, g2, g3, g4, g5⟩ := hps d p0 hfound
    refine ⟨?_, ?_, ?_, ?_⟩
    · rw [hkeys']
      exact hkeys
    · simp only
      rw [length_updatePostings_found d q pl.postings hsome, hdf]
    · simp only
      intro hnil
      rw [hnil] at hkeys'
      have : pl.postings = [] := by
        cases h : pl.postings with
        | nil => rfl
        | cons a l =>
          rw [h] at hkeys'
          simp at hkeys'
      rw [this] at hfound
      simp [alookup] at hfound
    · intro k p hp
      by_cases hk : k = d
      · subst hk
        simp only at hp
        rw [alookup_updatePostings_self] at hp
        rw [hfound] at hp
        simp only [bumpPosting] at hp
        cases hp
        refine ⟨g1, ?_, ?_, by omega, ?_⟩
        · simp [g2]
        · rw [List.chain'_append]
          refine ⟨g3, List.chain'_singleton q, ?_⟩
          intro x hx y hy
          simp at hy
          subst hy
          exact g5 rfl x (mem_of_getLast? hx)
        · intro _ x hx
          simp at hx
          rcases hx with hx | hx
          · have := g5 rfl x hx
            omega
          · omega
      · simp only at hp
        rw [alookup_updatePostings_other d q k pl.postings hk] at hp
        obtain ⟨f1, f2, f3, f4, f5⟩ := hps k p hp
        exact ⟨f1, f2, f3, f4, fun hkd => absurd hkd hk⟩

theorem addToken_inv {idx : InvertedIndex} {d q : Nat} (tok : Str)
    (h : IdxInv idx (d + 1) q) :
    IdxInv (addToken d q idx tok) (d + 1) (q + 1) := by
  obtain ⟨hkeys, hrest⟩ := h
  constructor
  · cases hfound : alookup idx tok with
    | none =>
      rw [keys_addToken_new d q idx tok hfound, List.nodup_append]
      refine ⟨hkeys, List.nodup_singleton tok, ?_⟩
      intro x hx hx2
      simp at hx2
      rw [hx2] at hx
      exact (alookup_eq_none idx tok).mp hfound hx
    | some pl =>
      rw [keys_addToken_found d q idx tok (by rw [hfound]; rfl)]
      exact hkeys
  · intro t pl hpl
    by_cases ht : t = tok
    · subst ht
      rw [alookup_addToken_self] at hpl
      cases hpl
      cases hfound : alookup idx t with
      | none =>
        have hprops := updatePostingList_inv d q { docFrequency := 0, postings := [] }
          (by simp) (by simp)
          (by intro k p hp; simp [alookup] at hp)
        simpa using hprops
      | some pl0 =>
        obtain ⟨h1, h2, _h3, h4⟩ := hrest t pl0 hfound
        have hprops := updatePostingList_inv d q pl0 h1 h2 (by
          intro k p hp
          obtain ⟨g1, g2, g3, g4, g5⟩ := h4 k p hp
          exact ⟨g1, g2, g3, g4, fun hk => g5 (by omega)⟩)
        simpa using hprops
    · rw [alookup_addToken_other d q idx tok t ht] at hpl
      obtain ⟨h1, h2, h3, h4⟩ := hrest t pl hpl
      refine ⟨h1, h2, h3, fun k p hp => ?_⟩
      obtain ⟨g1, g2, g3, g4, g5⟩ := h4 k p hp
      refine ⟨g1, g2, g3, g4, fun hk => ?_⟩
      intro x hx
      have := g5 hk x hx
      omega

theorem indexTokensFrom_inv {d : Nat} :
    ∀ (toks : List Str) (idx : InvertedIndex) (q : Nat),
      IdxInv idx (d + 1) q →
      IdxInv (indexTokensFrom d q idx toks) (d + 1) (q + toks.length) := by
  intro toks
  induction toks with
  | nil =>
    intro idx q h
    simpa [indexTokensFrom] using h
  | cons tok rest ih =>
    intro idx q h
    have h1 := addToken_inv tok h
    have h2 := ih (addToken d q idx tok) (q + 1) h1
    simp only [indexTokensFrom]
    have : q + 1 + rest.length = q + (rest.length + 1) := by omega
    rw [this] at h2
    simpa using h2

theorem buildFrom_final :
    ∀ (arts : List Article) (d : Nat) (idx : InvertedIndex),
      arts ≠ [] → IdxInv idx (d + 1) 0 →
      IdxFinal (buildFrom d idx arts) (d + arts.length) := by
  intro arts
  induction arts with
  | nil => intro d idx hne _; exact absurd rfl hne
  | cons a rest ih =>
    intro d idx _ h
    have h1 := indexTokensFrom_inv (ProcessText (a.title ++ [' '] ++ a.content)) idx 0 h
    cases hrest : rest with
    | nil =>
      simp only [buildFrom, hrest]
      have := h1.final
      simpa using this
    | cons b brest =>
      have h2 := h1.next_doc
      have h3 := ih (d + 1)
        (indexTokensFrom d 0 idx (ProcessText (a.title ++ [' '] ++ a.content)))
        (by rw [hrest]; simp) h2
      rw [hrest] at h3
      have harith : d + (a :: b :: brest).length = d + 1 + (b :: brest).length := by
        simp only [List.length_cons]
        omega
      rw [harith]
      exact h3

theorem buildInvertedIndex_final (articles : List Article) :
    IdxFinal (buildInvertedIndex articles) articles.length := by
  cases harts : articles with
  | nil =>
    refine ⟨List.nodup_nil, ?_⟩
    intro t pl hpl
    simp [buildInvertedIndex, buildFrom, alookup] at hpl
  | cons a rest =>
    have h0 : IdxInv ([] : InvertedIndex) 1 0 := by
      refine ⟨List.nodup_nil, ?_⟩
      intro t pl hpl
      simp [alookup] at hpl
    have := buildFrom_final (a :: rest) 0 [] (by simp) h0
    simpa [buildInvertedIndex] using this

/-- C2: in the index built by buildInvertedIndex, every term's DocFrequency
equals the number of distinct docIDs in its postings map, every posting's
Frequency equals the length of its Positions list, and every Positions list is
strictly ascending. -/
theorem buildInvertedIndex_invariants (articles : List Article) :
    ∀ t pl, alookup (buildInvertedIndex articles) t = some pl →
      pl.docFrequency = (pl.postings.map Prod.fst).dedup.length ∧
      ∀ d p, alookup pl.postings d = some p →
        p.frequency = p.positions.length ∧ p.positions.Chain' (· < ·) := by
  intro t pl hpl
  obtain ⟨_, hrest⟩ := buildInvertedIndex_final articles
  obtain ⟨h1, h2, _h3, h4⟩ := hrest t pl hpl
  constructor
  · rw [h1.dedup]
    rw [List.length_map]
    exact h2
  · intro d p hp
    obtain ⟨_, g2, g3, _⟩ := h4 d p hp
    exact ⟨g2, g3⟩

theorem buildInvertedIndex_invariants_witness :
    alookup (buildInvertedIndex [{ title := str "aaa", content := str "bbb aaa", url := str "u" }])
        (str "aaa") =
      some { docFrequency := 1,
             postings := [(0, { docID := 0, frequency := 2, positions := [0, 2] })] } ∧
    alookup [(0, Posting.mk 0 2 [0, 2])] 0 = some (Posting.mk 0 2 [0, 2]) ∧
    (1 = ([(0, Posting.mk 0 2 [0, 2])].map Prod.fst).dedup.length ∧
      2 = ([0, 2] : List Nat).length ∧ ([0, 2] : List Nat).Chain' (· < ·)) := by
  refine ⟨by decide, by decide, ?_⟩
  have h := buildInvertedIndex_invariants
    [{ title := str "aaa", content := str "bbb aaa", url := str "u" }]
    (str "aaa")
    { docFrequency := 1, postings := [(0, Posting.mk 0 2 [0, 2])] }
    (by decide)
  exact ⟨h.1, (h.2 0 (Posting.mk 0 2 [0, 2]) (by decide)).1, (h.2 0 (Posting.mk 0 2 [0, 2]) (by decide)).2⟩

/-! TF-IDF weighting (search.go lines 252-269). Go float64 arithmetic is modelled
over the reals; math.Log is Real.log. -/

/-- Model of calculateTFIDF (search.go lines 252-269): for every term of the
index, idf = ln(totalDocs / docFrequency) is computed once, and every posting
contributes the entry weight = frequency * idf for its docID. -/
noncomputable def calculateTFIDF (invertedIndex : InvertedIndex) (totalDocs : Nat) :
    List (Str × List (Nat × ℝ)) :=
  invertedIndex.map (fun tpl =>
    (tpl.1, tpl.2.postings.map (fun dp =>
      (dp.1, (dp.2.frequency : ℝ) *
        Real.log ((totalDocs : ℝ) / (tpl.2.docFrequency : ℝ))))))

theorem alookup_map_snd {α β γ : Type} [DecidableEq α] (f : β → γ) :
    ∀ (l : List (α × β)) (a : α),
      alookup (l.map (fun kv => (kv.1, f kv.2))) a = (alookup l a).map f := by
  intro l a
  induction l with
  | nil => rfl
  | cons kv rest ih =>
    obtain ⟨k, v⟩ := kv
    by_cases hk : k = a
    · subst hk
      simp [alookup]
    · simp [alookup, hk, ih]

/-- C3: the TF-IDF table assigns weight f * ln(totalDocs / df) to exactly the
(term, docID) pairs that are present in the inverted index, where f is the raw
posting frequency and df the term's document frequency; no smoothing or TF log
scaling is applied, and no entry exists for any other pair (sparsity: looking up
a pair fails in the table exactly when it fails in the index). -/
theorem calculateTFIDF_exact (idx : InvertedIndex) (totalDocs : Nat) (t : Str) (d : Nat) :
    (alookup (calculateTFIDF idx totalDocs) t).bind (fun col => alookup col d) =
      (alookup idx t).bind (fun pl => (alookup pl.postings d).map (fun p =>
        (p.frequency : ℝ) * Real.log ((totalDocs : ℝ) / (pl.docFrequency : ℝ)))) := by
  unfold calculateTFIDF
  rw [alookup_map_snd (fun pl : PostingList => pl.postings.map (fun dp =>
    (dp.1, (dp.2.frequency : ℝ) * Real.log ((totalDocs : ℝ) / (pl.docFrequency : ℝ)))))]
  cases alookup idx t with
  | none => rfl
  | some pl =>
    simp only [Option.map_some', Option.some_bind']
    rw [alookup_map_snd (fun p : Posting =>
      (p.frequency : ℝ) * Real.log ((totalDocs : ℝ) / (pl.docFrequency : ℝ)))]

/-! Similarity scorers (search.go lines 272-349). A Go map[string]float64 is
modelled as an association list with pairwise distinct keys; the operations
below are evaluated on lists satisfying that representation invariant. -/

/-- Term-weight vectors. -/
abbrev Vec := List (Str × ℝ)

/-- Sum of squared weights: the magnitude accumulator of normalizeVector
(search.go lines 276-280) before the square root is taken. -/
noncomputable def sumSq (v : Vec) : ℝ := (v.map (fun p => p.2 * p.2)).sum

/-- Model of normalizeVector (search.go lines 272-290): when the Euclidean
magnitude is positive every component is divided by it; otherwise the filling
loop never runs and the empty map is returned. -/
noncomputable def normalizeVector (vector : Vec) : Vec :=
  let magnitude := Real.sqrt (sumSq vector)
  if 0 < magnitude then vector.map (fun p => (p.1, p.2 / magnitude)) else []

/-- Document vector assembled from the TF-IDF column of one docID
(search.go lines 294-301). -/
noncomputable def docVector (tfidfScores : List (Str × List (Nat × ℝ))) (docID : Nat) : Vec :=
  tfidfScores.filterMap (fun ts => (alookup ts.2 docID).map (fun score => (ts.1, score)))

/-- Dot-product loop of cosineSimilarityWithTFIDF (search.go lines 307-313):
terms of the first vector that are absent from the second contribute zero. -/
noncomputable def dotProduct (q d : Vec) : ℝ :=
  (q.map (fun p =>
    match alookup d p.1 with
    | some w => p.2 * w
    | none => 0)).sum

/-- Model of cosineSimilarityWithTFIDF (search.go lines 293-316). -/
noncomputable def cosineSimilarityWithTFIDF (queryVector : Vec)
    (tfidfScores : List (Str × List (Nat × ℝ))) (docID : Nat) : ℝ :=
  dotProduct (normalizeVector queryVector) (normalizeVector (docVector tfidfScores docID))

/-- Intersection-over-union computation of jaccardSimilarityWithTFIDF
(search.go lines 334-348) on two key sets, with the union-is-empty guard. -/
noncomputable def jaccardOfSets (qs ds : List Str) : ℝ :=
  if qs.length + ds.length - (qs.filter (fun t => decide (t ∈ ds))).length = 0 then 0
  else ((qs.filter (fun t => decide (t ∈ ds))).length : ℝ) /
    ((qs.length + ds.length - (qs.filter (fun t => decide (t ∈ ds))).length : Nat) : ℝ)

/-- Model of jaccardSimilarityWithTFIDF (search.go lines 319-349) on vectors
with distinct keys: the query set is the key set of the query vector, the
document set collects the terms whose TF-IDF column contains the docID, and the
score is intersection over union, or 0 when the union is empty. -/
noncomputable def jaccardSimilarityWithTFIDF (queryVector : Vec)
    (tfidfScores : List (Str × List (Nat × ℝ))) (docID : Nat) : ℝ :=
  jaccardOfSets (queryVector.map Prod.fst)
    ((tfidfScores.filter (fun ts => (alookup ts.2 docID).isSome)).map Prod.fst)

/-- Query vector construction of searching (search.go lines 541-544):
queryVector[token]++ for every normalized query token. -/
noncomputable def bumpQuery : Vec → Str → Vec
  | [], tok => [(tok, 0 + 1)]
  | (t, w) :: rest, tok =>
    if t = tok then (t, w + 1) :: rest else (t, w) :: bumpQuery rest tok

/-- Model of the query-vector loop of searching (search.go lines 541-544). -/
noncomputable def mkQueryVector (tokens : List Str) : Vec :=
  tokens.foldl bumpQuery []

theorem sumSq_nonneg (v : Vec) : 0 ≤ sumSq v := by
  apply List.sum_nonneg
  intro x hx
  obtain ⟨p, _, hp⟩ := List.mem_map.mp hx
  rw [← hp]
  exact mul_self_nonneg p.2

theorem sumSq_cons (p : Str × ℝ) (v : Vec) : sumSq (p :: v) = p.2 * p.2 + sumSq v := by
  simp [sumSq]

theorem normalizeVector_eq_nil {v : Vec} (h : sumSq v ≤ 0) : normalizeVector v = [] := by
  unfold normalizeVector
  have hz : sumSq v = 0 := le_antisymm h (sumSq_nonneg v)
  simp [hz]

theorem normalizeVector_of_pos {v : Vec} (h : 0 < sumSq v) :
    normalizeVector v = v.map (fun p => (p.1, p.2 / Real.sqrt (sumSq v))) := by
  unfold normalizeVector
  have : 0 < Real.sqrt (sumSq v) := Real.sqrt_pos.mpr h
  simp [this]

theorem sumSq_normalize {v : Vec} (h : 0 < sumSq v) : sumSq (normalizeVector v) = 1 := by
  rw [normalizeVector_of_pos h]
  have hm : Real.sqrt (sumSq v) * Real.sqrt (sumSq v) = sumSq v := Real.mul_self_sqrt (le_of_lt h)
  have key : ∀ w : Vec, sumSq (w.map (fun p => (p.1, p.2 / Real.sqrt (sumSq v)))) =
      sumSq w / (sumSq v) := by
    intro w
    induction w with
    | nil => simp [sumSq]
    | cons p rest ih =>
      simp only [List.map_cons, sumSq_cons, ih]
      rw [div_mul_div_comm, hm]
      ring
  rw [key v]
  exact div_self (ne_of_gt h)

theorem normalizeVector_keys_of_pos {v : Vec} (h : 0 < sumSq v) :
    (normalizeVector v).map Prod.fst = v.map Prod.fst := by
  rw [normalizeVector_of_pos h]
  simp

theorem normalizeVector_val_nonneg {v : Vec} (hv : ∀ p ∈ v, 0 ≤ p.2) :
    ∀ p ∈ normalizeVector v, 0 ≤ p.2 := by
  intro p hp
  unfold normalizeVector at hp
  by_cases h : 0 < Real.sqrt (sumSq v)
  · simp only [if_pos h] at hp
    obtain ⟨p0, hp0, hpeq⟩ := List.mem_map.mp hp
    rw [← hpeq]
    exact div_nonneg (hv p0 hp0) (le_of_lt h)
  · simp only [if_neg h] at hp
    simp at hp

theorem dotProduct_nil_left (d : Vec) : dotProduct [] d = 0 := by simp [dotProduct]

theorem dotProduct_nonneg {q d : Vec} (hq : ∀ p ∈ q, 0 ≤ p.2) (hd : ∀ p ∈ d, 0 ≤ p.2) :
    0 ≤ dotProduct q d := by
  apply List.sum_nonneg
  intro x hx
  obtain ⟨p, hp, hpeq⟩ := List.mem_map.mp hx
  rw [← hpeq]
  cases hl : alookup d p.1 with
  | none => simp
  | some w =>
    have hw : (p.1, w) ∈ d := alookup_mem hl
    exact mul_nonneg (hq p hp) (hd (p.1, w) hw)

/-- Lookup value with default zero. -/
noncomputable def dval (d : Vec) (t : Str) : ℝ := (alookup d t).getD 0

theorem dotProduct_eq_dval (q d : Vec) :
    dotProduct q d = (q.map (fun p => p.2 * dval d p.1)).sum := by
  unfold dotProduct
  congr 1
  apply List.map_congr_left
  intro p _
  cases hl : alookup d p.1 with
  | none => simp [dval, hl]
  | some w => simp [dval, hl]

theorem list_cauchy_schwarz (l : List (ℝ × ℝ)) :
    ((l.map (fun p => p.1 * p.2)).sum) ^ 2 ≤
      (l.map (fun p => p.1 * p.1)).sum * (l.map (fun p => p.2 * p.2)).sum := by
  induction l with
  | nil => simp
  | cons p rest ih =>
    simp only [List.map_cons, List.sum_cons]
    have ha : (0 : ℝ) ≤ (rest.map (fun p => p.1 * p.1)).sum := by
      apply List.sum_nonneg
      intro x hx
      obtain ⟨p0, _, hp0⟩ := List.mem_map.mp hx
      rw [← hp0]
      exact mul_self_nonneg _
    have hb : (0 : ℝ) ≤ (rest.map (fun p => p.2 * p.2)).sum := by
      apply List.sum_nonneg
      intro x hx
      obtain ⟨p0, _, hp0⟩ := List.mem_map.mp hx
      rw [← hp0]
      exact mul_self_nonneg _
    set S := (rest.map (fun p => p.1 * p.2)).sum with hSdef
    set A := (rest.map (fun p => p.1 * p.1)).sum with hAdef
    set B := (rest.map (fun p => p.2 * p.2)).sum with hBdef
    rcases eq_or_lt_of_le hb with hB0 | hBpos
    · have hS2 : S ^ 2 ≤ 0 := by
        rw [← hB0] at ih
        simpa using ih
      have hS0 : S = 0 := by
        have h0 : S ^ 2 = 0 := le_antisymm hS2 (sq_nonneg S)
        exact pow_eq_zero_iff (n := 2) (by norm_num) |>.mp h0
      rw [← hB0, hS0]
      nlinarith [mul_nonneg ha (mul_self_nonneg p.2)]
    · have hABS : (0 : ℝ) ≤ A * B - S ^ 2 := by nlinarith [ih]
      nlinarith [sq_nonneg (p.1 * B - p.2 * S),
        mul_nonneg (add_nonneg (mul_self_nonneg p.2) hb) hABS, hBpos]

/-- Sum of squared looked-up weights of the second vector over the keys of the
first vector. -/
noncomputable def sumSqLookup (q d : Vec) : ℝ :=
  (q.map (fun p => dval d p.1 * dval d p.1)).sum

theorem dotProduct_sq_le (q d : Vec) :
    dotProduct q d ^ 2 ≤ sumSq q * sumSqLookup q d := by
  rw [dotProduct_eq_dval]
  have h := list_cauchy_schwarz (q.map (fun p => (p.2, dval d p.1)))
  simpa [sumSq, sumSqLookup, List.map_map, Function.comp] using h

/-- Removal of the first entry with a given key, used to count each entry of the
second vector at most once in the subset bound below. -/
def eraseKey {α β : Type} [DecidableEq α] (a : α) : List (α × β) → List (α × β)
  | [] => []
  | (k, v) :: rest => if k = a then rest else (k, v) :: eraseKey a rest

theorem alookup_eraseKey_ne {α β : Type} [DecidableEq α] (a b : α) (l : List (α × β))
    (h : b ≠ a) : alookup (eraseKey a l) b = alookup l b := by
  induction l with
  | nil => rfl
  | cons kv rest ih =>
    obtain ⟨k, v⟩ := kv
    by_cases hk : k = a
    · subst hk
      have he : eraseKey k ((k, v) :: rest) = rest := by simp [eraseKey]
      have ha2 : alookup ((k, v) :: rest) b = alookup rest b := by
        simp only [alookup]
        rw [if_neg (fun hkb => h hkb.symm)]
      rw [he, ha2]
    · by_cases hk2 : k = b
      · subst hk2
        simp [eraseKey, alookup, hk]
      · simp [eraseKey, alookup, hk, hk2, ih]

theorem sumSq_eraseKey {d : Vec} {t : Str} {w : ℝ} (h : alookup d t = some w) :
    sumSq d = w * w + sumSq (eraseKey t d) := by
  induction d with
  | nil => simp [alookup] at h
  | cons kv rest ih =>
    obtain ⟨k, v⟩ := kv
    by_cases hk : k = t
    · subst hk
      simp [alookup] at h
      subst h
      simp [eraseKey, sumSq_cons]
    · simp only [alookup, if_neg hk] at h
      simp only [eraseKey, if_neg hk, sumSq_cons, ih h]
      ring

theorem sumSqLookup_congr {q d d' : Vec}
    (h : ∀ p ∈ q, alookup d p.1 = alookup d' p.1) :
    sumSqLookup q d = sumSqLookup q d' := by
  unfold sumSqLookup
  congr 1
  apply List.map_congr_left
  intro p hp
  simp [dval, h p hp]

theorem sumSqLookup_le_sumSq : ∀ (q d : Vec), (q.map Prod.fst).Nodup →
    sumSqLookup q d ≤ sumSq d := by
  intro q
  induction q with
  | nil =>
    intro d _
    simpa [sumSqLookup] using sumSq_nonneg d
  | cons p q' ih =>
    intro d hq
    rw [List.map_cons, List.nodup_cons] at hq
    obtain ⟨hnotin, hnodup⟩ := hq
    have hexp : sumSqLookup (p :: q') d = dval d p.1 * dval d p.1 + sumSqLookup q' d := by
      simp [sumSqLookup]
    rw [hexp]
    cases hl : alookup d p.1 with
    | none =>
      have : dval d p.1 = 0 := by simp [dval, hl]
      rw [this]
      have := ih d hnodup
      linarith
    | some w0 =>
      have hdv : dval d p.1 = w0 := by simp [dval, hl]
      have hcongr : sumSqLookup q' d = sumSqLookup q' (eraseKey p.1 d) := by
        apply sumSqLookup_congr
        intro r hr
        have hne : r.1 ≠ p.1 := by
          intro hcontra
          exact hnotin (hcontra ▸ List.mem_map_of_mem Prod.fst hr)
        exact (alookup_eraseKey_ne p.1 r.1 d hne).symm
      have hsplit : sumSq d = w0 * w0 + sumSq (eraseKey p.1 d) := sumSq_eraseKey hl
      have := ih (eraseKey p.1 d) hnodup
      rw [hdv, hcongr, hsplit]
      linarith

theorem dotProduct_le_sqrt (q d : Vec) (hq : (q.map Prod.fst).Nodup) :
    dotProduct q d ≤ Real.sqrt (sumSq q) * Real.sqrt (sumSq d) := by
  have h1 : dotProduct q d ^ 2 ≤ sumSq q * sumSq d :=
    le_trans (dotProduct_sq_le q d)
      (mul_le_mul_of_nonneg_left (sumSqLookup_le_sumSq q d hq) (sumSq_nonneg q))
  calc dotProduct q d ≤ |dotProduct q d| := le_abs_self _
    _ = Real.sqrt (dotProduct q d ^ 2) := (Real.sqrt_sq_eq_abs _).symm
    _ ≤ Real.sqrt (sumSq q * sumSq d) := Real.sqrt_le_sqrt h1
    _ = Real.sqrt (sumSq q) * Real.sqrt (sumSq d) := Real.sqrt_mul (sumSq_nonneg q) _

theorem dotProduct_nil_right (q : Vec) : dotProduct q [] = 0 := by
  induction q with
  | nil => simp [dotProduct]
  | cons p rest ih =>
    simp only [dotProduct, List.map_cons, List.sum_cons] at *
    simpa [alookup] using ih

theorem cosine_le_one (Q D : Vec) (hq : (Q.map Prod.fst).Nodup) :
    dotProduct (normalizeVector Q) (normalizeVector D) ≤ 1 := by
  by_cases hQ : 0 < sumSq Q
  · by_cases hD : 0 < sumSq D
    · have hkeys : ((normalizeVector Q).map Prod.fst).Nodup := by
        rw [normalizeVector_keys_of_pos hQ]
        exact hq
      have h := dotProduct_le_sqrt (normalizeVector Q) (normalizeVector D) hkeys
      rw [sumSq_normalize hQ, sumSq_normalize hD] at h
      simpa using h
    · rw [normalizeVector_eq_nil (not_lt.mp hD), dotProduct_nil_right]
      norm_num
  · rw [normalizeVector_eq_nil (not_lt.mp hQ), dotProduct_nil_left]
    norm_num

theorem keys_bumpQuery_found (v : Vec) (tok : Str) (h : (alookup v tok).isSome) :
    (bumpQuery v tok).map Prod.fst = v.map Prod.fst := by
  induction v with
  | nil => simp [alookup] at h
  | cons kv rest ih =>
    obtain ⟨t, w⟩ := kv
    by_cases ht : t = tok
    · subst ht
      simp [bumpQuery]
    · simp only [alookup, if_neg ht] at h
      simp [bumpQuery, ht, ih h]

theorem keys_bumpQuery_new (v : Vec) (tok : Str) (h : alookup v tok = none) :
    (bumpQuery v tok).map Prod.fst = v.map Prod.fst ++ [tok] := by
  induction v with
  | nil => simp [bumpQuery]
  | cons kv rest ih =>
    obtain ⟨t, w⟩ := kv
    by_cases ht : t = tok
    · subst ht
      simp [alookup] at h
    · simp only [alookup, if_neg ht] at h
      simp [bumpQuery, ht, ih h]

theorem bumpQuery_nodup {v : Vec} (tok : Str) (h : (v.map Prod.fst).Nodup) :
    ((bumpQuery v tok).map Prod.fst).Nodup := by
  cases hfound : alookup v tok with
  | none =>
    rw [keys_bumpQuery_new v tok hfound, List.nodup_append]
    refine ⟨h, List.nodup_singleton tok, ?_⟩
    intro x hx hx2
    simp at hx2
    rw [hx2] at hx
    exact (alookup_eq_none v tok).mp hfound hx
  | some w =>
    rw [keys_bumpQuery_found v tok (by rw [hfound]; rfl)]
    exact h

theorem bumpQuery_nonneg {v : Vec} (tok : Str) (h : ∀ p ∈ v, 0 ≤ p.2) :
    ∀ p ∈ bumpQuery v tok, 0 ≤ p.2 := by
  induction v with
  | nil =>
    intro p hp
    simp [bumpQuery] at hp
    rw [hp]
    norm_num
  | cons kv rest ih =>
    obtain ⟨t, w⟩ := kv
    intro p hp
    by_cases ht : t = tok
    · subst ht
      simp only [bumpQuery, if_pos rfl] at hp
      rcases List.mem_cons.mp hp with hp | hp
      · rw [hp]
        have := h (t, w) (List.mem_cons_self _ _)
        simp at this ⊢
        linarith
      · exact h p (List.mem_cons_of_mem _ hp)
    · simp only [bumpQuery, if_neg ht] at hp
      rcases List.mem_cons.mp hp with hp | hp
      · rw [hp]
        exact h (t, w) (List.mem_cons_self _ _)
      · exact ih (fun r hr => h r (List.mem_cons_of_mem _ hr)) p hp

theorem mkQueryVector_aux :
    ∀ (toks : List Str) (v : Vec), (v.map Prod.fst).Nodup → (∀ p ∈ v, 0 ≤ p.2) →
      ((toks.foldl bumpQuery v).map Prod.fst).Nodup ∧
        ∀ p ∈ toks.foldl bumpQuery v, 0 ≤ p.2 := by
  intro toks
  induction toks with
  | nil => intro v h1 h2; exact ⟨h1, h2⟩
  | cons tok rest ih =>
    intro v h1 h2
    exact ih (bumpQuery v tok) (bumpQuery_nodup tok h1) (bumpQuery_nonneg tok h2)

theorem mkQueryVector_nodup (toks : List Str) :
    ((mkQueryVector toks).map Prod.fst).Nodup :=
  (mkQueryVector_aux toks [] (by simp) (by simp)).1

theorem mkQueryVector_nonneg (toks : List Str) :
    ∀ p ∈ mkQueryVector toks, 0 ≤ p.2 :=
  (mkQueryVector_aux toks [] (by simp) (by simp)).2

theorem alookup_of_mem_nodup {α β : Type} [DecidableEq α] {l : List (α × β)}
    (h : (l.map Prod.fst).Nodup) {k : α} {v : β} (hm : (k, v) ∈ l) :
    alookup l k = some v := by
  induction l with
  | nil => simp at hm
  | cons kv rest ih =>
    obtain ⟨k0, v0⟩ := kv
    rw [List.map_cons, List.nodup_cons] at h
    rcases List.mem_cons.mp hm with hm | hm
    · cases hm
      simp [alookup]
    · have hk : k0 ≠ k := by
        intro hcontra
        apply h.1
        rw [hcontra]
        exact List.mem_map.mpr ⟨(k, v), hm, rfl⟩
      simp only [alookup, if_neg hk]
      exact ih h.2 hm

theorem nodup_lt_length_le {l : List Nat} {n : Nat} (hnd : l.Nodup) (hlt : ∀ x ∈ l, x < n) :
    l.length ≤ n := by
  have h1 : l.toFinset.card = l.length := List.toFinset_card_of_nodup hnd
  have h2 : l.toFinset ⊆ Finset.range n := by
    intro x hx
    rw [List.mem_toFinset] at hx
    rw [Finset.mem_range]
    exact hlt x hx
  have h3 := Finset.card_le_card h2
  rw [Finset.card_range] at h3
  omega

theorem docFrequency_le (articles : List Article) {t : Str} {pl : PostingList}
    (h : alookup (buildInvertedIndex articles) t = some pl) :
    pl.docFrequency ≤ articles.length := by
  obtain ⟨_, hrest⟩ := buildInvertedIndex_final articles
  obtain ⟨h1, h2, _h3, h4⟩ := hrest t pl h
  rw [h2]
  have hlen : pl.postings.length = (pl.postings.map Prod.fst).length := by simp
  rw [hlen]
  apply nodup_lt_length_le h1
  intro k hk
  obtain ⟨kp, hmem, hfst⟩ := List.mem_map.mp hk
  obtain ⟨k0, p⟩ := kp
  cases hfst
  have hl := alookup_of_mem_nodup h1 hmem
  exact (h4 k0 p hl).2.2.2

theorem docFrequency_pos (articles : List Article) {t : Str} {pl : PostingList}
    (h : alookup (buildInvertedIndex articles) t = some pl) :
    1 ≤ pl.docFrequency := by
  obtain ⟨_, hrest⟩ := buildInvertedIndex_final articles
  obtain ⟨_h1, h2, h3, _h4⟩ := hrest t pl h
  rw [h2]
  cases hps : pl.postings with
  | nil => exact absurd hps h3
  | cons a l => simp

theorem idx_keys_nodup (articles : List Article) :
    ((buildInvertedIndex articles).map Prod.fst).Nodup :=
  (buildInvertedIndex_final articles).1

theorem tfidf_keys (idx : InvertedIndex) (n : Nat) :
    (calculateTFIDF idx n).map Prod.fst = idx.map Prod.fst := by
  unfold calculateTFIDF
  rw [List.map_map]
  rfl

theorem tfidf_value_nonneg (articles : List Article) {t : Str} {col : List (Nat × ℝ)}
    {d : Nat} {w : ℝ}
    (hcol : (t, col) ∈ calculateTFIDF (buildInvertedIndex articles) articles.length)
    (hw : (d, w) ∈ col) : 0 ≤ w := by
  unfold calculateTFIDF at hcol
  obtain ⟨tpl, hmem, heq⟩ := List.mem_map.mp hcol
  obtain ⟨t0, pl⟩ := tpl
  simp only [Prod.mk.injEq] at heq
  obtain ⟨ht0, hcol0⟩ := heq
  rw [← hcol0] at hw
  obtain ⟨dp, _hdp, hweq⟩ := List.mem_map.mp hw
  simp only [Prod.mk.injEq] at hweq
  obtain ⟨_, hw0⟩ := hweq
  rw [← hw0]
  have hl : alookup (buildInvertedIndex articles) t0 = some pl :=
    alookup_of_mem_nodup (idx_keys_nodup articles) hmem
  have hdfle := docFrequency_le articles hl
  have hdfpos := docFrequency_pos articles hl
  apply mul_nonneg (Nat.cast_nonneg _)
  apply Real.log_nonneg
  rw [le_div_iff (by exact_mod_cast hdfpos)]
  · rw [one_mul]
    exact_mod_cast hdfle

theorem docVector_val_nonneg (articles : List Article) (docID : Nat) :
    ∀ p ∈ docVector (calculateTFIDF (buildInvertedIndex articles) articles.length) docID,
      0 ≤ p.2 := by
  intro p hp
  unfold docVector at hp
  obtain ⟨ts, hts, hmap⟩ := List.mem_filterMap.mp hp
  cases hl : alookup ts.2 docID with
  | none => rw [hl] at hmap; simp at hmap
  | some score =>
    rw [hl] at hmap
    simp only [Option.map_some', Option.some.injEq] at hmap
    have hmem : (docID, score) ∈ ts.2 := alookup_mem hl
    have := @tfidf_value_nonneg articles ts.1 ts.2 docID score
      (by cases ts; exact hts) hmem
    rw [← hmap]
    exact this

theorem dotProduct_eq_zero {q d : Vec} (h : ∀ p ∈ q, alookup d p.1 = none) :
    dotProduct q d = 0 := by
  unfold dotProduct
  have : q.map (fun p =>
      match alookup d p.1 with
      | some w => p.2 * w
      | none => 0) = q.map (fun _ => (0 : ℝ)) := by
    apply List.map_congr_left
    intro p hp
    rw [h p hp]
  rw [this]
  simp

theorem alookup_isSome_mem {α β : Type} [DecidableEq α] {l : List (α × β)} {a : α}
    (h : alookup l a ≠ none) : a ∈ l.map Prod.fst := by
  by_contra hcontra
  exact h ((alookup_eq_none l a).mpr hcontra)

theorem normalizeVector_keys_sub {v : Vec} {t : Str}
    (h : t ∈ (normalizeVector v).map Prod.fst) : t ∈ v.map Prod.fst := by
  by_cases hpos : 0 < sumSq v
  · rwa [normalizeVector_keys_of_pos hpos] at h
  · rw [normalizeVector_eq_nil (not_lt.mp hpos)] at h
    simp at h

theorem docVector_keys_sub {T : List (Str × List (Nat × ℝ))} {docID : Nat} {t : Str}
    (h : t ∈ (docVector T docID).map Prod.fst) :
    ∃ col, (t, col) ∈ T ∧ (alookup col docID).isSome := by
  unfold docVector at h
  obtain ⟨p, hp, hpeq⟩ := List.mem_map.mp h
  obtain ⟨ts, hts, hmap⟩ := List.mem_filterMap.mp hp
  cases hl : alookup ts.2 docID with
  | none => rw [hl] at hmap; simp at hmap
  | some score =>
    rw [hl] at hmap
    simp only [Option.map_some', Option.some.injEq] at hmap
    refine ⟨ts.2, ?_, by rw [hl]; rfl⟩
    have : ts.1 = t := by rw [← hmap] at hpeq; exact hpeq
    rw [← this]
    cases ts
    exact hts

theorem jaccardOfSets_bounds (qs ds : List Str) (hq : qs.Nodup) :
    0 ≤ jaccardOfSets qs ds ∧ jaccardOfSets qs ds ≤ 1 := by
  unfold jaccardOfSets
  by_cases hu : qs.length + ds.length - (qs.filter (fun t => decide (t ∈ ds))).length = 0
  · rw [if_pos hu]
    exact ⟨le_refl 0, zero_le_one⟩
  · rw [if_neg hu]
    have hiq : (qs.filter (fun t => decide (t ∈ ds))).length ≤ qs.length :=
      (List.filter_sublist _).length_le
    have hnodupf : (qs.filter (fun t => decide (t ∈ ds))).Nodup := hq.filter _
    have hsub : ∀ x ∈ qs.filter (fun t => decide (t ∈ ds)), x ∈ ds := by
      intro x hx
      exact of_decide_eq_true (List.mem_filter.mp hx).2
    have hid : (qs.filter (fun t => decide (t ∈ ds))).length ≤ ds.length := by
      have hcard := List.toFinset_card_of_nodup hnodupf
      have hsubf : (qs.filter (fun t => decide (t ∈ ds))).toFinset ⊆ ds.toFinset := by
        intro x hx
        rw [List.mem_toFinset] at hx ⊢
        exact hsub x hx
      have hle := Finset.card_le_card hsubf
      have hle2 : ds.toFinset.card ≤ ds.length := List.toFinset_card_le ds
      omega
    have hile : (qs.filter (fun t => decide (t ∈ ds))).length ≤
        qs.length + ds.length - (qs.filter (fun t => decide (t ∈ ds))).length := by omega
    have hupos : 0 < qs.length + ds.length - (qs.filter (fun t => decide (t ∈ ds))).length := by
      omega
    constructor
    · exact div_nonneg (Nat.cast_nonneg _) (Nat.cast_nonneg _)
    · rw [div_le_one (by exact_mod_cast hupos)]
      exact_mod_cast hile

theorem jaccardOfSets_zero {qs ds : List Str} (h : ∀ t ∈ qs, t ∉ ds) :
    jaccardOfSets qs ds = 0 := by
  unfold jaccardOfSets
  have hi : (qs.filter (fun t => decide (t ∈ ds))).length = 0 := by
    rw [List.length_eq_zero]
    rw [List.filter_eq_nil]
    intro a ha
    simp [h a ha]
  rw [hi]
  by_cases hu : qs.length + ds.length - 0 = 0
  · rw [if_pos hu]
  · rw [if_neg hu]
    simp

theorem cosine_zero_of_no_shared (articles : List Article) (Q : Vec) (docID : Nat)
    (hsh : ∀ t ∈ Q.map Prod.fst,
      (alookup (calculateTFIDF (buildInvertedIndex articles) articles.length) t).bind
        (fun col => alookup col docID) = none) :
    cosineSimilarityWithTFIDF Q
      (calculateTFIDF (buildInvertedIndex articles) articles.length) docID = 0 := by
  unfold cosineSimilarityWithTFIDF
  apply dotProduct_eq_zero
  intro p hp
  by_contra hcontra
  have hmem : p.1 ∈ (normalizeVector
      (docVector (calculateTFIDF (buildInvertedIndex articles) articles.length) docID)).map
        Prod.fst := alookup_isSome_mem hcontra
  have hmem2 := normalizeVector_keys_sub hmem
  obtain ⟨col, hcol, hcolsome⟩ := docVector_keys_sub hmem2
  have hqk : p.1 ∈ Q.map Prod.fst :=
    normalizeVector_keys_sub (List.mem_map.mpr ⟨p, hp, rfl⟩)
  have hTnodup : ((calculateTFIDF (buildInvertedIndex articles) articles.length).map
      Prod.fst).Nodup := by
    rw [tfidf_keys]
    exact idx_keys_nodup articles
  have hTk := alookup_of_mem_nodup hTnodup hcol
  have hz := hsh p.1 hqk
  rw [hTk] at hz
  simp only [Option.some_bind'] at hz
  rw [hz] at hcolsome
  simp at hcolsome

theorem jaccard_zero_of_no_shared (articles : List Article) (Q : Vec) (docID : Nat)
    (hsh : ∀ t ∈ Q.map Prod.fst,
      (alookup (calculateTFIDF (buildInvertedIndex articles) articles.length) t).bind
        (fun col => alookup col docID) = none) :
    jaccardSimilarityWithTFIDF Q
      (calculateTFIDF (buildInvertedIndex articles) articles.length) docID = 0 := by
  unfold jaccardSimilarityWithTFIDF
  apply jaccardOfSets_zero
  intro t ht htd
  obtain ⟨ts, hts, hteq⟩ := List.mem_map.mp htd
  have h2 := List.mem_filter.mp hts
  have hTnodup : ((calculateTFIDF (buildInvertedIndex articles) articles.length).map
      Prod.fst).Nodup := by
    rw [tfidf_keys]
    exact idx_keys_nodup articles
  have hTk : alookup (calculateTFIDF (buildInvertedIndex articles) articles.length) ts.1 =
      some ts.2 := alookup_of_mem_nodup hTnodup (by
        have := h2.1
        cases ts
        exact this)
  have hz := hsh t ht
  rw [← hteq, hTk] at hz
  simp only [Option.some_bind'] at hz
  have := h2.2
  rw [hz] at this
  simp at this

/-- C4: for a query vector built from term counts and the TF-IDF table built
over the whole collection, the cosine score and the Jaccard score of every
document lie in the closed interval from 0 to 1; a zero-magnitude vector is
normalized to the empty vector rather than divided by zero; and both scores are
0 whenever the query and the document share no normalized terms (for the empty
union this is the Jaccard guard). -/
theorem similarity_score_bounds (articles : List Article) (qtokens : List Str) (docID : Nat) :
    (0 ≤ cosineSimilarityWithTFIDF (mkQueryVector qtokens)
        (calculateTFIDF (buildInvertedIndex articles) articles.length) docID ∧
      cosineSimilarityWithTFIDF (mkQueryVector qtokens)
        (calculateTFIDF (buildInvertedIndex articles) articles.length) docID ≤ 1) ∧
    (0 ≤ jaccardSimilarityWithTFIDF (mkQueryVector qtokens)
        (calculateTFIDF (buildInvertedIndex articles) articles.length) docID ∧
      jaccardSimilarityWithTFIDF (mkQueryVector qtokens)
        (calculateTFIDF (buildInvertedIndex articles) articles.length) docID ≤ 1) ∧
    (sumSq (mkQueryVector qtokens) = 0 → normalizeVector (mkQueryVector qtokens) = []) ∧
    ((∀ t ∈ (mkQueryVector qtokens).map Prod.fst,
        (alookup (calculateTFIDF (buildInvertedIndex articles) articles.length) t).bind
          (fun col => alookup col docID) = none) →
      cosineSimilarityWithTFIDF (mkQueryVector qtokens)
        (calculateTFIDF (buildInvertedIndex articles) articles.length) docID = 0 ∧
      jaccardSimilarityWithTFIDF (mkQueryVector qtokens)
        (calculateTFIDF (buildInvertedIndex articles) articles.length) docID = 0) := by
  refine ⟨⟨?_, ?_⟩, ?_, ?_, ?_⟩
  · unfold cosineSimilarityWithTFIDF
    apply dotProduct_nonneg
    · exact normalizeVector_val_nonneg (mkQueryVector_nonneg qtokens)
    · exact normalizeVector_val_nonneg (docVector_val_nonneg articles docID)
  · exact cosine_le_one _ _ (mkQueryVector_nodup qtokens)
  · unfold jaccardSimilarityWithTFIDF
    apply jaccardOfSets_bounds
    exact mkQueryVector_nodup qtokens
  · intro hz
    exact normalizeVector_eq_nil (le_of_eq hz)
  · intro hsh
    exact ⟨cosine_zero_of_no_shared articles (mkQueryVector qtokens) docID hsh,
      jaccard_zero_of_no_shared articles (mkQueryVector qtokens) docID hsh⟩

theorem similarity_score_bounds_witness :
    (0 ≤ cosineSimilarityWithTFIDF (mkQueryVector [])
        (calculateTFIDF (buildInvertedIndex
          [{ title := str "aaa", content := str "bbb", url := str "u" }]) 1) 0 ∧
      cosineSimilarityWithTFIDF (mkQueryVector [])
        (calculateTFIDF (buildInvertedIndex
          [{ title := str "aaa", content := str "bbb", url := str "u" }]) 1) 0 ≤ 1) ∧
    (0 ≤ jaccardSimilarityWithTFIDF (mkQueryVector [])
        (calculateTFIDF (buildInvertedIndex
          [{ title := str "aaa", content := str "bbb", url := str "u" }]) 1) 0 ∧
      jaccardSimilarityWithTFIDF (mkQueryVector [])
        (calculateTFIDF (buildInvertedIndex
          [{ title := str "aaa", content := str "bbb", url := str "u" }]) 1) 0 ≤ 1) ∧
    normalizeVector (mkQueryVector []) = [] ∧
    (cosineSimilarityWithTFIDF (mkQueryVector [])
        (calculateTFIDF (buildInvertedIndex
          [{ title := str "aaa", content := str "bbb", url := str "u" }]) 1) 0 = 0 ∧
      jaccardSimilarityWithTFIDF (mkQueryVector [])
        (calculateTFIDF (buildInvertedIndex
          [{ title := str "aaa", content := str "bbb", url := str "u" }]) 1) 0 = 0) := by
  have h := similarity_score_bounds
    [{ title := str "aaa", content := str "bbb", url := str "u" }] [] 0
  simp only [List.length_cons, List.length_nil] at h
  exact ⟨h.1, h.2.1, h.2.2.1 (by simp [mkQueryVector, sumSq]),
    h.2.2.2 (by simp [mkQueryVector])⟩

/-! Snippet generator (search.go lines 352-470). Every regexp pass of
cleanContent is modelled by a scanner implementing RE2 leftmost-first matching
for that concrete pattern; the fuel argument equals the string length and only
makes the recursion structural. -/

/-- Characters matched by the regexp escape backslash-S (not regexp whitespace). -/
def nonSpace (c : Char) : Bool := !(reSpace c)

/-- Model of strings.ReplaceAll(content, pat, "") for a nonempty literal pattern:
delete every non-overlapping occurrence, scanning left to right. -/
def replaceAllEmptyF : Nat → Str → Str → Str
  | 0, _, s => s
  | _ + 1, _, [] => []
  | fuel + 1, pat, c :: cs =>
    if pat ≠ [] ∧ pat <+: (c :: cs) then
      replaceAllEmptyF fuel pat ((c :: cs).drop pat.length)
    else c :: replaceAllEmptyF fuel pat cs

/-- Model of strings.ReplaceAll(content, pat, "") (search.go lines 413-415). -/
def replaceAllEmpty (pat s : Str) : Str := replaceAllEmptyF s.length pat s

/-- The unwanted boilerplate literals of cleanContent (search.go lines 405-411). -/
def unwantedTexts : List Str :=
  [str "Baca juga:", str "Baca Juga:",
   str "Simak breaking news", str "Google News",
   str "Terus ikuti", str "Lebih banyak informasi",
   str "Follow", str "Instagram", str "Twitter", str "Facebook",
   str "Bagikan:", str "Share:", str "Read more"]

/-- Model of the pattern https? :// followed by backslash-S plus (search.go line
419): at a position starting with http:// or https:// and followed by at least
one non-space character, the greedy match extends to the end of the non-space
run and is deleted; scanning resumes after it. -/
def stripHTTPF : Nat → Str → Str
  | 0, s => s
  | _ + 1, [] => []
  | fuel + 1, c :: cs =>
    if str "https://" <+: (c :: cs) ∧ ((c :: cs).drop 8).takeWhile nonSpace ≠ [] then
      stripHTTPF fuel (((c :: cs).drop 8).dropWhile nonSpace)
    else if str "http://" <+: (c :: cs) ∧ ((c :: cs).drop 7).takeWhile nonSpace ≠ [] then
      stripHTTPF fuel (((c :: cs).drop 7).dropWhile nonSpace)
    else c :: stripHTTPF fuel cs

/-- Model of the pattern www backslash-dot backslash-S plus (search.go line 420). -/
def stripWWWF : Nat → Str → Str
  | 0, s => s
  | _ + 1, [] => []
  | fuel + 1, c :: cs =>
    if str "www." <+: (c :: cs) ∧ ((c :: cs).drop 4).takeWhile nonSpace ≠ [] then
      stripWWWF fuel (((c :: cs).drop 4).dropWhile nonSpace)
    else c :: stripWWWF fuel cs

/-- Test for a dot followed by com, net or org, anywhere in the given string. -/
def hasDotTLD : Str → Bool
  | [] => false
  | c :: cs =>
    (c = '.' ∧ (str "com" <+: cs ∨ str "net" <+: cs ∨ str "org" <+: cs)) ∨ hasDotTLD cs

/-- Model of the pattern backslash-S plus backslash-dot (com|net|org)
backslash-S star (search.go line 421): a maximal non-space run matches exactly
when it contains a dot at position at least 1 followed by com, net or org; the
greedy trailing part extends the match to the end of the run, so the whole run
is deleted. -/
def stripDomainsF : Nat → Str → Str
  | 0, s => s
  | _ + 1, [] => []
  | fuel + 1, c :: cs =>
    if nonSpace c then
      (if hasDotTLD (((c :: cs).takeWhile nonSpace).drop 1) then []
       else (c :: cs).takeWhile nonSpace) ++
        stripDomainsF fuel ((c :: cs).dropWhile nonSpace)
    else c :: stripDomainsF fuel cs

/-- Test for a dot with at least one character after it. -/
def dotWithTail : Str → Bool
  | [] => false
  | c :: cs => (c = '.' ∧ cs ≠ []) ∨ dotWithTail cs

/-- Test, from each position at least 1, for an at-sign followed by at least one
character, a dot, and at least one further character. -/
def hasAtDot : Str → Bool
  | [] => false
  | c :: cs =>
    (decide (c = '@') && (match cs with
      | [] => false
      | _ :: cs2 => dotWithTail cs2)) || hasAtDot cs

/-- Model of the email pattern backslash-S plus at-sign backslash-S plus
backslash-dot backslash-S plus (search.go line 429): a maximal non-space run
matches exactly when an at-sign at position at least 1 is followed, after at
least one character, by a dot that has at least one character after it inside
the run; the greedy ends extend the match to the whole run, which is deleted. -/
def stripEmailsF : Nat → Str → Str
  | 0, s => s
  | _ + 1, [] => []
  | fuel + 1, c :: cs =>
    if nonSpace c then
      (if hasAtDot (((c :: cs).takeWhile nonSpace).drop 1) then []
       else (c :: cs).takeWhile nonSpace) ++
        stripEmailsF fuel ((c :: cs).dropWhile nonSpace)
    else c :: stripEmailsF fuel cs

/-- Model of the social-handle pattern at-sign backslash-S plus (search.go line
433): an at-sign followed by at least one non-space character starts a match
that greedily extends to the end of the non-space run and is deleted. -/
def stripHandlesF : Nat → Str → Str
  | 0, s => s
  | _ + 1, [] => []
  | fuel + 1, c :: cs =>
    if c = '@' ∧ cs.takeWhile nonSpace ≠ [] then
      stripHandlesF fuel (cs.dropWhile nonSpace)
    else c :: stripHandlesF fuel cs

/-- Character class of the special-character pattern of step 5 (search.go line
437): not an ASCII letter or digit and not regexp whitespace (note: unlike
backslash-w this class does not contain the underscore). -/
def specialChar (c : Char) : Bool := !(c.isAlphanum || reSpace c)

/-- Model of the pattern of one-or-more special characters replaced by one
space (search.go lines 437-438): each maximal special run becomes one space. -/
def replaceSpecialF : Nat → Str → Str
  | 0, s => s
  | _ + 1, [] => []
  | fuel + 1, c :: cs =>
    if specialChar c then ' ' :: replaceSpecialF fuel ((c :: cs).dropWhile specialChar)
    else c :: replaceSpecialF fuel cs

/-- Model of the standalone-number pattern backslash-s plus backslash-d plus
backslash-s plus (search.go lines 441-442): a whitespace run, a digit run, and
at least one further whitespace character form a match replaced by one space;
scanning resumes after the greedy trailing whitespace, so alternating digits
partially survive, as in Go. -/
def stripNumsF : Nat → Str → Str
  | 0, s => s
  | _ + 1, [] => []
  | fuel + 1, c :: cs =>
    if reSpace c then
      let rest := (c :: cs).dropWhile reSpace
      let drun := rest.takeWhile Char.isDigit
      let after := rest.dropWhile Char.isDigit
      if drun ≠ [] ∧ after.takeWhile reSpace ≠ [] then
        ' ' :: stripNumsF fuel (after.dropWhile reSpace)
      else ((c :: cs).takeWhile reSpace ++ drun) ++ stripNumsF fuel after
    else c :: stripNumsF fuel cs

/-- Model of the whitespace-collapsing pattern backslash-s plus replaced by one
space (search.go lines 445 and 467). -/
def collapseSpacesF : Nat → Str → Str
  | 0, s => s
  | _ + 1, [] => []
  | fuel + 1, c :: cs =>
    if reSpace c then ' ' :: collapseSpacesF fuel ((c :: cs).dropWhile reSpace)
    else c :: collapseSpacesF fuel cs

/-- Model of strings collapsing whitespace runs to a single space. -/
def collapseSpaces (s : Str) : Str := collapseSpacesF s.length s

/-- The sentence punctuation class of step 9 (search.go line 451). -/
def punct9 (c : Char) : Bool :=
  c == '.' || c == ',' || c == '!' || c == '?' || c == ';' || c == ':'

/-- Model of the pattern backslash-s star punctuation backslash-s star replaced
by one space (search.go line 451): optional leading whitespace, one punctuation
character, and greedy trailing whitespace form a match. -/
def collapsePunctF : Nat → Str → Str
  | 0, s => s
  | _ + 1, [] => []
  | fuel + 1, c :: cs =>
    if punct9 c then ' ' :: collapsePunctF fuel (cs.dropWhile reSpace)
    else if reSpace c then
      match (c :: cs).dropWhile reSpace with
      | [] => (c :: cs).takeWhile reSpace
      | p :: ps =>
        if punct9 p then ' ' :: collapsePunctF fuel (ps.dropWhile reSpace)
        else (c :: cs).takeWhile reSpace ++ collapsePunctF fuel (p :: ps)
    else c :: collapsePunctF fuel cs

/-- Adjacent-duplicate word removal of step 10 (search.go lines 454-463),
starting from the empty previous word as in the Go source. -/
def dedupRunAux (prev : Str) : List Str → List Str
  | [] => []
  | w :: ws => if w = prev then dedupRunAux prev ws else w :: dedupRunAux w ws

/-- Model of cleanContent (search.go lines 403-470), passes in source order. -/
def cleanContent (content : Str) : Str :=
  let c1 := unwantedTexts.foldl (fun s pat => replaceAllEmpty pat s) content
  let c2 := stripHTTPF c1.length c1
  let c3 := stripWWWF c2.length c2
  let c4 := stripDomainsF c3.length c3
  let c5 := stripEmailsF c4.length c4
  let c6 := stripHandlesF c5.length c5
  let c7 := replaceSpecialF c6.length c6
  let c8 := stripNumsF c7.length c7
  let c9 := collapseSpaces c8
  let c10 := trimSpace c9
  let c11 := collapsePunctF c10.length c10
  let c12 := joinSpace (dedupRunAux [] (fields c11))
  collapseSpaces (trimSpace c12)

/-- Model of strings.Index: index of the first occurrence of pat in the string,
none when absent (Go returns -1). -/
def indexOfSub (pat : Str) : Str → Option Nat
  | [] => if pat = [] then some 0 else none
  | c :: cs => if pat <+: (c :: cs) then some 0 else (indexOfSub pat cs).map (· + 1)

/-- Word count of the normalized-content prefix before the match
(search.go line 373). -/
def previewWordCount (cleanedContent : Str) (pos : Nat) : Nat :=
  (fields ((joinSpace (ProcessText cleanedContent)).take pos)).length

/-- Character offset obtained by summing the lengths plus one of the first
wordCount words of the cleaned content (search.go lines 376-379). -/
def previewWordPos (cleanedContent : Str) (wordCount : Nat) : Nat :=
  (((fields cleanedContent).take wordCount).map (fun w => w.length + 1)).sum

/-- Window start: sixty characters before the word offset, clamped at zero
(search.go lines 381-384). -/
def previewStart (wordPos : Nat) : Int :=
  if (wordPos : Int) - 60 < 0 then 0 else (wordPos : Int) - 60

/-- Window end: the start plus 160, clamped at the content length
(search.go lines 386-389). -/
def previewEnd (start : Int) (clen : Nat) : Int :=
  if (clen : Int) < start + 160 then (clen : Int) else start + 160

/-- Long branch of getContentPreview (search.go lines 360-399), entered when
the cleaned content exceeds 160 characters. -/
def previewLong (cleanedContent query : Str) : Str :=
  let queryText := joinSpace (ProcessText query)
  let contentText := joinSpace (ProcessText cleanedContent)
  match indexOfSub (toLowerStr queryText) (toLowerStr contentText) with
  | none => cleanedContent.take 160 ++ str "..."
  | some pos =>
    let wordCount := previewWordCount cleanedContent pos
    let wordPos := previewWordPos cleanedContent wordCount
    let start := previewStart wordPos
    let e := previewEnd start cleanedContent.length
    let result := (cleanedContent.drop start.toNat).take (e - start).toNat
    let result2 := if 0 < start then str "..." ++ result else result
    if e < (cleanedContent.length : Int) then result2 ++ str "..." else result2

/-- Model of getContentPreview (search.go lines 352-400). The maxLength
parameter is accepted and immediately overwritten with the constant 160
(line 354), so the result does not depend on it. -/
def getContentPreview (content query : Str) (maxLength : Nat) : Str :=
  if (cleanContent content).length ≤ 160 then cleanContent content
  else previewLong (cleanContent content) query

/-- C7: the result of getContentPreview does not depend on the caller-supplied
maxLength argument, which the implementation overwrites with the constant 160;
and when the cleaned content is at most 160 characters long it is returned
unchanged. -/
theorem getContentPreview_maxLength (content query : Str) (m1 m2 : Nat) :
    getContentPreview content query m1 = getContentPreview content query m2 ∧
    ((cleanContent content).length ≤ 160 →
      getContentPreview content query m1 = cleanContent content) := by
  constructor
  · rfl
  · intro h
    unfold getContentPreview
    rw [if_pos h]

theorem getContentPreview_maxLength_witness :
    getContentPreview (str "abc") (str "x") 0 = getContentPreview (str "abc") (str "x") 999 ∧
      getContentPreview (str "abc") (str "x") 0 = cleanContent (str "abc") := by
  have h := getContentPreview_maxLength (str "abc") (str "x") 0 999
  exact ⟨h.1, h.2 (by decide)⟩

theorem fields_sum_le :
    ∀ (n : Nat) (s : Str), s.length ≤ n →
      (((fields s).map (fun w => w.length + 1)).sum) ≤ s.length + 1 := by
  intro n
  induction n with
  | zero =>
    intro s hs
    have : s = [] := List.eq_nil_of_length_eq_zero (by omega)
    subst this
    simp [fields_nil]
  | succ m ih =>
    intro s hs
    cases s with
    | nil => simp [fields_nil]
    | cons c cs =>
      simp only [List.length_cons] at hs
      rw [fields_cons]
      by_cases hc : goSpace c = true
      · rw [if_pos hc]
        have := ih cs (by omega)
        simp only [List.length_cons]
        omega
      · rw [if_neg hc]
        have hrunlen : ((c :: cs).takeWhile (fun x => !goSpace x)).length +
            ((c :: cs).dropWhile (fun x => !goSpace x)).length = cs.length + 1 := by
          have hsplit := congrArg List.length
            (List.takeWhile_append_dropWhile (p := fun x => !goSpace x) (l := c :: cs))
          rw [List.length_append] at hsplit
          simp only [List.length_cons] at hsplit
          omega
        have hdroplen : ((c :: cs).dropWhile (fun x => !goSpace x)).length ≤ cs.length :=
          dropWhile_cons_length_lt (by simp [hc])
        cases hrest : (c :: cs).dropWhile (fun x => !goSpace x) with
        | nil =>
          rw [hrest] at hrunlen
          simp only [fields_nil, List.map_cons, List.sum_cons, List.map_nil,
            List.sum_nil, List.length_cons]
          omega
        | cons d ds =>
          have hd : goSpace d = true := by
            have := dropWhile_cons_head_false (p := fun x => !goSpace x) hrest
            simpa using this
          rw [hrest] at hrunlen hdroplen
          rw [fields_cons, if_pos hd]
          have hds := ih ds (by simp only [List.length_cons] at hrunlen hdroplen; omega)
          simp only [List.map_cons, List.sum_cons, List.length_cons] at *
          omega

theorem previewWordPos_le (cleaned : Str) (wc : Nat) :
    previewWordPos cleaned wc ≤ cleaned.length + 1 := by
  unfold previewWordPos
  have h1 : (((fields cleaned).take wc).map (fun w => w.length + 1)).sum ≤
      ((fields cleaned).map (fun w => w.length + 1)).sum := by
    conv_rhs => rw [← List.take_append_drop wc (fields cleaned)]
    rw [List.map_append, List.sum_append]
    exact Nat.le_add_right _ _
  exact le_trans h1 (fields_sum_le (cleaned.length) cleaned le_rfl)

/-- Concrete 170-character content with its only letter b in the final word,
used to exercise the preview window of getContentPreview. -/
def longContent : Str :=
  str "qa qc qa qc qa qc qa qc qa qc qa qc qa qc qa qc qa qc qa qc qa qc qa qc qa qc qa qc qa qc qa qc qa qc qa qc qa qc qa qc qa qc qa qc qa qc qa qc qa qc qa qc qa qc qa qc zb"

/-- C9 counterexample to the parenthetical of the claim: on this content and
query the code's word-count-to-character-offset translation yields 171, one
more than the cleaned content's length 170, while the claim states it cannot
exceed that length. -/
theorem preview_wordPos_exceeds_length :
    160 < (cleanContent longContent).length ∧
    indexOfSub (toLowerStr (joinSpace (ProcessText (str "b"))))
        (toLowerStr (joinSpace (ProcessText (cleanContent longContent)))) = some 169 ∧
    (cleanContent longContent).length <
      previewWordPos (cleanContent longContent)
        (previewWordCount (cleanContent longContent) 169) := by
  refine ⟨by decide, by decide, by decide⟩

/-- C9 (amended): whenever the cleaned content is longer than 160 characters
and the normalized query phrase is found in the normalized content, the window
bounds of getContentPreview satisfy 0 ≤ start ≤ end ≤ length of the cleaned
content, so every substring operation in the function is well-defined; the
word-count-to-character-offset translation can exceed the cleaned content's
length, but by at most one. -/
theorem preview_bounds (content query : Str) (pos : Nat)
    (hlen : 160 < (cleanContent content).length)
    (hfound : indexOfSub (toLowerStr (joinSpace (ProcessText query)))
        (toLowerStr (joinSpace (ProcessText (cleanContent content)))) = some pos) :
    0 ≤ previewStart (previewWordPos (cleanContent content)
        (previewWordCount (cleanContent content) pos)) ∧
    previewStart (previewWordPos (cleanContent content)
        (previewWordCount (cleanContent content) pos)) ≤
      previewEnd (previewStart (previewWordPos (cleanContent content)
        (previewWordCount (cleanContent content) pos))) (cleanContent content).length ∧
    previewEnd (previewStart (previewWordPos (cleanContent content)
        (previewWordCount (cleanContent content) pos))) (cleanContent content).length ≤
      ((cleanContent content).length : Int) ∧
    previewWordPos (cleanContent content) (previewWordCount (cleanContent content) pos) ≤
      (cleanContent content).length + 1 := by
  have hwp := previewWordPos_le (cleanContent content)
    (previewWordCount (cleanContent content) pos)
  unfold previewStart previewEnd
  split_ifs <;> (constructor <;> try constructor) <;> try constructor
  all_goals omega

theorem preview_bounds_witness :
    (0 ≤ previewStart (previewWordPos (cleanContent longContent)
        (previewWordCount (cleanContent longContent) 169)) ∧
      previewStart (previewWordPos (cleanContent longContent)
        (previewWordCount (cleanContent longContent) 169)) ≤
        previewEnd (previewStart (previewWordPos (cleanContent longContent)
          (previewWordCount (cleanContent longContent) 169)))
          (cleanContent longContent).length ∧
      previewEnd (previewStart (previewWordPos (cleanContent longContent)
          (previewWordCount (cleanContent longContent) 169)))
          (cleanContent longContent).length ≤
        ((cleanContent longContent).length : Int) ∧
      previewWordPos (cleanContent longContent)
          (previewWordCount (cleanContent longContent) 169) ≤
        (cleanContent longContent).length + 1) :=
  preview_bounds longContent (str "b") 169 (by decide) (by decide)

/-! Highlighting, favicon mapping and the search driver
(search.go lines 473-505 and 526-580). -/

/-- One pass of highlightText for one query token (search.go lines 481-488),
modelling the pattern case-insensitive word-boundary word-chars-star token
word-chars-star word-boundary over ASCII text: every maximal word-character run
that contains the token case-insensitively is wrapped in emphasis markup. -/
def wrapRunsF : Nat → Str → Str → Str
  | 0, _, s => s
  | _ + 1, _, [] => []
  | fuel + 1, tok, c :: cs =>
    if reWordChar c then
      (if toLowerStr tok <:+: toLowerStr ((c :: cs).takeWhile reWordChar) then
        str "<em>" ++ (c :: cs).takeWhile reWordChar ++ str "</em>"
       else (c :: cs).takeWhile reWordChar) ++
        wrapRunsF fuel tok ((c :: cs).dropWhile reWordChar)
    else c :: wrapRunsF fuel tok cs

/-- Model of highlightText (search.go lines 473-491): tokens of the normalized
query of length at least 2 are applied sequentially to the text. -/
def highlightText (text query : Str) : Str :=
  if query = [] then text
  else
    (ProcessText query).foldl
      (fun highlighted token =>
        if token.length < 2 then highlighted
        else wrapRunsF highlighted.length token highlighted)
      text

/-- Model of getFaviconPath (search.go lines 494-505). -/
def getFaviconPath (url : Str) : Str :=
  if str "https://artikel.rumah123.com/" <+: url then str "/static/rumah123.png"
  else if str "https://propertiterkini.com/" <+: url then str "/static/propertiterkini.png"
  else if str "https://propertyandthecity.com/" <+: url then str "/static/propertyandthecity.png"
  else str "/static/favicon.svg"

/-- Model of the SearchResult struct (search.go lines 21-28). -/
structure SearchResult where
  title : Str
  content : Str
  url : Str
  score : ℝ
  highlightedContent : Str
  favicon : Str

/-- Method dispatch of searching (search.go lines 550-557): unknown or empty
methods fall back to cosine. -/
noncomputable def scoreOf (method : Str) (queryVector : Vec)
    (tfidfScores : List (Str × List (Nat × ℝ))) (i : Nat) : ℝ :=
  if method = str "cosine" then cosineSimilarityWithTFIDF queryVector tfidfScores i
  else if method = str "jaccard" then jaccardSimilarityWithTFIDF queryVector tfidfScores i
  else cosineSimilarityWithTFIDF queryVector tfidfScores i

/-- Result-collection loop of searching (search.go lines 548-572): a result is
produced only for documents with score strictly greater than 0. -/
noncomputable def collectResults (query method : Str) (queryVector : Vec)
    (tfidfScores : List (Str × List (Nat × ℝ))) : Nat → List Article → List SearchResult
  | _, [] => []
  | i, a :: rest =>
    (if 0 < scoreOf method queryVector tfidfScores i then
      [{ title := a.title,
         content := getContentPreview a.content query 160,
         url := a.url,
         score := scoreOf method queryVector tfidfScores i,
         highlightedContent := highlightText (getContentPreview a.content query 160) query,
         favicon := getFaviconPath a.url }]
     else []) ++ collectResults query method queryVector tfidfScores (i + 1) rest

/-- Model of searching (search.go lines 526-580) with the loaded article
collection passed in (loadArticles is the external storage collaborator); the
final sort.Slice call with a strict greater-than comparator is modelled by
mergeSort with the matching non-strict Boolean relation, which produces a
permutation sorted by non-increasing score, the property the source
postcondition guarantees. -/
noncomputable def searching (articles : List Article) (query method : Str) :
    List SearchResult :=
  (collectResults query method (mkQueryVector (ProcessText query))
      (calculateTFIDF (buildInvertedIndex articles) articles.length) 0 articles).mergeSort
    (fun a b => decide (b.score ≤ a.score))

theorem collectResults_pos (query method : Str) (queryVector : Vec)
    (tfidfScores : List (Str × List (Nat × ℝ))) :
    ∀ (i : Nat) (arts : List Article),
      ∀ r ∈ collectResults query method queryVector tfidfScores i arts, 0 < r.score := by
  intro i arts
  induction arts generalizing i with
  | nil => intro r hr; simp [collectResults] at hr
  | cons a rest ih =>
    intro r hr
    simp only [collectResults] at hr
    rcases List.mem_append.mp hr with hr | hr
    · by_cases hs : 0 < scoreOf method queryVector tfidfScores i
      · rw [if_pos hs] at hr
        simp at hr
        rw [hr]
        exact hs
      · rw [if_neg hs] at hr
        simp at hr
    · exact ih (i + 1) r hr

/-- C6: the result sequence of searching contains only documents whose
similarity score is strictly positive, and it is sorted by non-increasing
score: every result's score is at least the score of every later result. -/
theorem searching_filtered_and_sorted (articles : List Article) (query method : Str) :
    List.Forall (fun r => 0 < r.score) (searching articles query method) ∧
    List.Pairwise (fun a b => b.score ≤ a.score) (searching articles query method) := by
  constructor
  · rw [List.forall_iff_forall_mem]
    intro r hr
    have hperm := List.mergeSort_perm
      (collectResults query method (mkQueryVector (ProcessText query))
        (calculateTFIDF (buildInvertedIndex articles) articles.length) 0 articles)
      (fun a b => decide (b.score ≤ a.score))
    have hmem := hperm.mem_iff.mp hr
    exact collectResults_pos query method _ _ 0 articles r hmem
  · have hsorted := @List.sorted_mergeSort SearchResult
      (fun a b : SearchResult => decide (b.score ≤ a.score))
      (by
        intro a b c hab hbc
        simp only [decide_eq_true_eq] at *
        exact le_trans hbc hab)
      (by
        intro a b
        simp only [Bool.or_eq_true, decide_eq_true_eq]
        exact le_total b.score a.score)
      (collectResults query method (mkQueryVector (ProcessText query))
        (calculateTFIDF (buildInvertedIndex articles) articles.length) 0 articles)
    refine hsorted.imp ?_
    intro a b h
    simpa using h

/-! Character-level facts about the ASCII case folding used by the pipeline,
needed for the conditional idempotence of normalization. -/

theorem uint32_le_iff (a b : UInt32) : a ≤ b ↔ a.toNat ≤ b.toNat := Iff.rfl

theorem toLower_toNat_of_upper {c : Char} (h1 : 65 ≤ c.toNat) (h2 : c.toNat ≤ 90) :
    (Char.toLower c).toNat = c.toNat + 32 := by
  have hvalid : Nat.isValidChar (c.toNat + 32) := Or.inl (by omega)
  unfold Char.toLower
  rw [if_pos ⟨h1, h2⟩]
  rw [Char.ofNat, dif_pos hvalid]
  simp [Char.ofNatAux, Char.toNat, UInt32.toNat]

theorem toLower_eq_self_of_not_upper {c : Char} (h : ¬(65 ≤ c.toNat ∧ c.toNat ≤ 90)) :
    Char.toLower c = c := by
  unfold Char.toLower
  rw [if_neg h]

theorem toLowerChar_idem (c : Char) : toLowerChar (toLowerChar c) = toLowerChar c := by
  unfold toLowerChar
  by_cases h : 65 ≤ c.toNat ∧ c.toNat ≤ 90
  · have h1 := toLower_toNat_of_upper h.1 h.2
    apply toLower_eq_self_of_not_upper
    omega
  · rw [toLower_eq_self_of_not_upper h, toLower_eq_self_of_not_upper h]

theorem isLower_of_toNat {c : Char} (h1 : 97 ≤ c.toNat) (h2 : c.toNat ≤ 122) :
    c.isLower = true := by
  unfold Char.isLower
  rw [Bool.and_eq_true, decide_eq_true_eq, decide_eq_true_eq]
  constructor
  · exact (uint32_le_iff 97 c.val).mpr h1
  · exact (uint32_le_iff c.val 122).mpr h2

theorem reWordChar_toLower {c : Char} (h : reWordChar c = true) :
    reWordChar (toLowerChar c) = true := by
  unfold toLowerChar
  by_cases hu : 65 ≤ c.toNat ∧ c.toNat ≤ 90
  · have h1 := toLower_toNat_of_upper hu.1 hu.2
    unfold reWordChar Char.isAlphanum Char.isAlpha
    have hl : (Char.toLower c).isLower = true := isLower_of_toNat (by omega) (by omega)
    simp [hl]
  · rw [toLower_eq_self_of_not_upper hu]
    exact h

theorem reSpace_goSpace {c : Char} (h : reSpace c = true) : goSpace c = true := by
  simp only [reSpace, Bool.or_eq_true, beq_iff_eq] at h
  simp only [goSpace, Bool.or_eq_true, beq_iff_eq]
  tauto

theorem word_not_goSpace {c : Char} (h : reWordChar c = true) : goSpace c = false := by
  by_contra hcontra
  have hg : goSpace c = true := by
    cases hg2 : goSpace c
    · exact absurd hg2 hcontra
    · rfl
  simp only [goSpace, Bool.or_eq_true, beq_iff_eq] at hg
  rcases hg with ((((h1 | h1) | h1) | h1) | h1) | h1 <;>
    first
      | (subst h1; exact absurd h (by decide))
      | exact absurd h (by decide)

theorem word_not_reSpace {c : Char} (h : reWordChar c = true) : reSpace c = false := by
  by_contra hcontra
  have hg : reSpace c = true := by
    cases hg2 : reSpace c
    · exact absurd hg2 hcontra
    · rfl
  simp only [reSpace, Bool.or_eq_true, beq_iff_eq] at hg
  rcases hg with (((h1 | h1) | h1) | h1) | h1 <;>
    first
      | (subst h1; exact absurd h (by decide))
      | exact absurd h (by decide)

/-! String-level facts feeding the conditional idempotence of ProcessText. -/

theorem replNum_chars :
    ∀ (n : Nat) (s : Str) (prev : Bool), s.length ≤ n →
      ∀ c ∈ replNum prev s, c ∈ s ∨ c = ' ' := by
  intro n
  induction n with
  | zero =>
    intro s prev hs
    have : s = [] := List.eq_nil_of_length_eq_zero (by omega)
    subst this
    intro c hc
    simp [replNum_nil] at hc
  | succ m ih =>
    intro s prev hs
    cases s with
    | nil => intro c hc; simp [replNum_nil] at hc
    | cons c0 cs =>
      simp only [List.length_cons] at hs
      intro c hc
      rw [replNum_cons] at hc
      by_cases hcond : (c0.isDigit && !prev) = true
      · rw [if_pos hcond] at hc
        have hcd : c0.isDigit := ((Bool.and_eq_true _ _).mp hcond).1
        cases hdrop : (c0 :: cs).dropWhile Char.isDigit with
        | nil =>
          rw [hdrop] at hc
          simp at hc
          exact Or.inr hc
        | cons d ds =>
          rw [hdrop] at hc
          have hlen : (d :: ds).length ≤ m := by
            have := @dropWhile_cons_length_lt Char.isDigit _ cs hcd
            rw [hdrop] at this
            omega
          have hmemdrop : ∀ x ∈ d :: ds, x ∈ c0 :: cs := by
            intro x hx
            rw [← hdrop] at hx
            exact (List.dropWhile_sublist _).subset hx
          dsimp only at hc
          by_cases hw : reWordChar d = true
          · rw [if_pos hw] at hc
            rcases List.mem_append.mp hc with hc | hc
            · exact Or.inl ((List.takeWhile_prefix _).subset hc)
            · rcases ih (d :: ds) true hlen c hc with hc2 | hc2
              · exact Or.inl (hmemdrop c hc2)
              · exact Or.inr hc2
          · rw [if_neg hw] at hc
            rcases List.mem_cons.mp hc with hc | hc
            · exact Or.inr hc
            · rcases ih (d :: ds) true hlen c hc with hc2 | hc2
              · exact Or.inl (hmemdrop c hc2)
              · exact Or.inr hc2
      · rw [if_neg hcond] at hc
        rcases List.mem_cons.mp hc with hc | hc
        · exact Or.inl (by rw [hc]; exact List.mem_cons_self _ _)
        · rcases ih cs (reWordChar c0) (by omega) c hc with hc2 | hc2
          · exact Or.inl (List.mem_cons_of_mem _ hc2)
          · exact Or.inr hc2

theorem trimSpace_subset {s : Str} : ∀ c ∈ trimSpace s, c ∈ s := by
  intro c hc
  unfold trimSpace at hc
  rw [List.mem_reverse] at hc
  have h1 := (List.dropWhile_sublist _).subset hc
  rw [List.mem_reverse] at h1
  exact (List.dropWhile_sublist _).subset h1

theorem fields_props :
    ∀ (n : Nat) (s : Str), s.length ≤ n →
      ∀ w ∈ fields s, w ≠ [] ∧ ∀ c ∈ w, goSpace c = false ∧ c ∈ s := by
  intro n
  induction n with
  | zero =>
    intro s hs
    have : s = [] := List.eq_nil_of_length_eq_zero (by omega)
    subst this
    intro w hw
    simp [fields_nil] at hw
  | succ m ih =>
    intro s hs
    cases s with
    | nil => intro w hw; simp [fields_nil] at hw
    | cons c0 cs =>
      simp only [List.length_cons] at hs
      intro w hw
      rw [fields_cons] at hw
      by_cases hc : goSpace c0 = true
      · rw [if_pos hc] at hw
        obtain ⟨hne, hrest⟩ := ih cs (by omega) w hw
        exact ⟨hne, fun c hcw => ⟨(hrest c hcw).1, List.mem_cons_of_mem _ (hrest c hcw).2⟩⟩
      · rw [if_neg hc] at hw
        rcases List.mem_cons.mp hw with hw | hw
        · subst hw
          constructor
          · rw [List.takeWhile_cons]
            simp [hc]
          · intro c hcw
            have h1 := List.mem_takeWhile_imp hcw
            simp only [Bool.not_eq_true'] at h1
            exact ⟨h1, (List.takeWhile_prefix _).subset hcw⟩
        · have hdlen : ((c0 :: cs).dropWhile (fun x => !goSpace x)).length ≤ cs.length :=
            dropWhile_cons_length_lt (by simp [hc])
          obtain ⟨hne, hrest⟩ := ih ((c0 :: cs).dropWhile (fun x => !goSpace x))
            (by omega) w hw
          refine ⟨hne, fun c hcw => ⟨(hrest c hcw).1, ?_⟩⟩
          exact (List.dropWhile_sublist _).subset (hrest c hcw).2

theorem stripSuffixLoop_subset (l : List Str) (w : Str) :
    ∀ c ∈ stripSuffixLoop l w, c ∈ w := by
  induction l with
  | nil => intro c hc; exact hc
  | cons s rest ih =>
    intro c hc
    unfold stripSuffixLoop at hc
    by_cases hs : s <:+ w
    · rw [if_pos hs] at hc
      exact List.take_subset _ _ hc
    · rw [if_neg hs] at hc
      exact ih c hc

theorem stripPrefixLoop_subset (l : List Str) (w : Str) :
    ∀ c ∈ stripPrefixLoop l w, c ∈ w := by
  induction l with
  | nil => intro c hc; exact hc
  | cons p rest ih =>
    intro c hc
    unfold stripPrefixLoop at hc
    by_cases hp : p <+: w
    · rw [if_pos hp] at hc
      by_cases hlen : 4 ≤ (w.drop p.length).length
      · rw [if_pos hlen] at hc
        exact List.drop_subset _ _ hc
      · rw [if_neg hlen] at hc
        exact ih c hc
    · rw [if_neg hp] at hc
      exact ih c hc

theorem stem_subset (w : Str) : ∀ c ∈ stem w, c ∈ w := by
  intro c hc
  unfold stem at hc
  by_cases h1 : w.length < 4
  · rw [if_pos h1] at hc
    exact hc
  · rw [if_neg h1] at hc
    by_cases h2 : (stripPrefixLoop prefixList (stripSuffixLoop suffixList w)).length < 3
    · rw [if_pos h2] at hc
      exact hc
    · rw [if_neg h2] at hc
      exact stripSuffixLoop_subset suffixList w c
        (stripPrefixLoop_subset prefixList _ c hc)

theorem joinSpace_nil : joinSpace [] = [] := rfl

theorem joinSpace_single (t : Str) : joinSpace [t] = t := by
  simp [joinSpace, List.intersperse]

theorem joinSpace_cons2 (t t' : Str) (r : List Str) :
    joinSpace (t :: t' :: r) = t ++ ' ' :: joinSpace (t' :: r) := by
  simp [joinSpace, List.intersperse]

theorem joinSpace_chars {ts : List Str} :
    ∀ c ∈ joinSpace ts, (∃ t ∈ ts, c ∈ t) ∨ c = ' ' := by
  induction ts with
  | nil => intro c hc; simp [joinSpace_nil] at hc
  | cons t ts' ih =>
    cases ts' with
    | nil =>
      intro c hc
      rw [joinSpace_single] at hc
      exact Or.inl ⟨t, by simp, hc⟩
    | cons t' r =>
      intro c hc
      rw [joinSpace_cons2] at hc
      rcases List.mem_append.mp hc with hc | hc
      · exact Or.inl ⟨t, by simp, hc⟩
      · rcases List.mem_cons.mp hc with hc | hc
        · exact Or.inr hc
        · rcases ih c hc with ⟨t0, ht0, hct⟩ | hsp
          · exact Or.inl ⟨t0, List.mem_cons_of_mem _ ht0, hct⟩
          · exact Or.inr hsp

theorem joinSpace_head_mem {ts : List Str} {c : Char}
    (hne : ∀ t ∈ ts, t ≠ []) (h : (joinSpace ts).head? = some c) : ∃ t ∈ ts, c ∈ t := by
  cases ts with
  | nil => simp [joinSpace_nil] at h
  | cons t ts' =>
    have htne := hne t (List.mem_cons_self _ _)
    cases t with
    | nil => exact absurd rfl htne
    | cons c0 cr =>
      cases ts' with
      | nil =>
        rw [joinSpace_single] at h
        simp at h
        exact ⟨c0 :: cr, List.mem_cons_self _ _, by rw [← h]; exact List.mem_cons_self _ _⟩
      | cons t' r =>
        rw [joinSpace_cons2, List.cons_append] at h
        simp at h
        exact ⟨c0 :: cr, List.mem_cons_self _ _, by rw [← h]; exact List.mem_cons_self _ _⟩

theorem getLast?_append_right {α : Type} {l1 l2 : List α} (h : l2 ≠ []) :
    (l1 ++ l2).getLast? = l2.getLast? := by
  induction l1 with
  | nil => simp
  | cons a l ih =>
    cases hx : l ++ l2 with
    | nil =>
      rcases List.append_eq_nil.mp hx with ⟨_, h2⟩
      exact absurd h2 h
    | cons x xs =>
      rw [List.cons_append, hx, List.getLast?_cons_cons, ← hx, ih]

theorem joinSpace_ne_nil {ts : List Str} (hts : ts ≠ []) (hne : ∀ t ∈ ts, t ≠ []) :
    joinSpace ts ≠ [] := by
  cases ts with
  | nil => exact absurd rfl hts
  | cons t ts' =>
    have htne := hne t (List.mem_cons_self _ _)
    cases ts' with
    | nil =>
      rw [joinSpace_single]
      exact htne
    | cons t' r =>
      rw [joinSpace_cons2]
      intro hcontra
      rcases List.append_eq_nil.mp hcontra with ⟨_, h2⟩
      exact List.cons_ne_nil _ _ h2

theorem joinSpace_last_mem {ts : List Str} {c : Char}
    (hne : ∀ t ∈ ts, t ≠ []) (h : (joinSpace ts).getLast? = some c) : ∃ t ∈ ts, c ∈ t := by
  induction ts with
  | nil => simp [joinSpace_nil] at h
  | cons t ts' ih =>
    cases ts' with
    | nil =>
      rw [joinSpace_single] at h
      exact ⟨t, List.mem_cons_self _ _, mem_of_getLast? h⟩
    | cons t' r =>
      rw [joinSpace_cons2] at h
      have hjs : joinSpace (t' :: r) ≠ [] :=
        joinSpace_ne_nil (List.cons_ne_nil _ _)
          (fun x hx => hne x (List.mem_cons_of_mem _ hx))
      rw [getLast?_append_right (List.cons_ne_nil _ _)] at h
      cases hjx : joinSpace (t' :: r) with
      | nil => exact absurd hjx hjs
      | cons y ys =>
        rw [hjx, List.getLast?_cons_cons, ← hjx] at h
        obtain ⟨t0, ht0, hct⟩ := ih (fun x hx => hne x (List.mem_cons_of_mem _ hx)) h
        exact ⟨t0, List.mem_cons_of_mem _ ht0, hct⟩

theorem replacePunct_id {s : Str} (h : ∀ c ∈ s, reWordChar c = true ∨ reSpace c = true) :
    replacePunct s = s := by
  unfold replacePunct
  have : s.map (fun c => if reWordChar c || reSpace c then c else ' ') = s.map id := by
    apply List.map_congr_left
    intro c hc
    have := h c hc
    have hcond : (reWordChar c || reSpace c) = true := by
      rcases this with h1 | h1 <;> simp [h1]
    rw [hcond]
    rfl
  rw [this, List.map_id]

theorem dropWhile_eq_self_of_head {p : Char → Bool} :
    ∀ (s : Str), (∀ c, s.head? = some c → p c = false) → s.dropWhile p = s := by
  intro s h
  cases s with
  | nil => rfl
  | cons c cs =>
    rw [List.dropWhile_cons, h c rfl]
    simp

theorem trimSpace_eq_self {s : Str}
    (hh : ∀ c, s.head? = some c → goSpace c = false)
    (hl : ∀ c, s.getLast? = some c → goSpace c = false) : trimSpace s = s := by
  unfold trimSpace
  rw [dropWhile_eq_self_of_head s hh]
  rw [dropWhile_eq_self_of_head s.reverse (by
    intro c hc
    rw [List.head?_reverse] at hc
    exact hl c hc)]
  exact List.reverse_reverse s

theorem fields_joinSpace :
    ∀ (ts : List Str), (∀ t ∈ ts, t ≠ []) → (∀ t ∈ ts, ∀ c ∈ t, goSpace c = false) →
      fields (joinSpace ts) = ts := by
  intro ts
  induction ts with
  | nil => intro _ _; rw [joinSpace_nil, fields_nil]
  | cons t ts' ih =>
    intro hne hns
    have htne := hne t (List.mem_cons_self _ _)
    have htns := hns t (List.mem_cons_self _ _)
    cases ts' with
    | nil =>
      rw [joinSpace_single]
      cases t with
      | nil => exact absurd rfl htne
      | cons c cs =>
        rw [fields_cons]
        have hc : goSpace c = false := htns c (List.mem_cons_self _ _)
        rw [if_neg (by simp [hc])]
        have htake : (c :: cs).takeWhile (fun x => !goSpace x) = c :: cs := by
          apply List.takeWhile_eq_self_iff.mpr
          intro x hx
          simp [htns x hx]
        have hdrop : (c :: cs).dropWhile (fun x => !goSpace x) = [] := by
          apply List.dropWhile_eq_nil_iff.mpr
          intro x hx
          simp [htns x hx]
        rw [htake, hdrop, fields_nil]
    | cons t' r =>
      rw [joinSpace_cons2]
      cases t with
      | nil => exact absurd rfl htne
      | cons c cs =>
        rw [List.cons_append, fields_cons]
        have hc : goSpace c = false := htns c (List.mem_cons_self _ _)
        rw [if_neg (by simp [hc])]
        have hall : ∀ x ∈ c :: cs, (!goSpace x) = true := by
          intro x hx
          simp [htns x hx]
        have htake : (c :: (cs ++ ' ' :: joinSpace (t' :: r))).takeWhile (fun x => !goSpace x) =
            c :: cs := by
          rw [← List.cons_append]
          rw [takeWhile_append_all _ hall]
          rw [List.takeWhile_cons]
          simp [goSpace]
        have hdrop : (c :: (cs ++ ' ' :: joinSpace (t' :: r))).dropWhile (fun x => !goSpace x) =
            ' ' :: joinSpace (t' :: r) := by
          rw [← List.cons_append]
          rw [dropWhile_append_all _ hall]
          rw [List.dropWhile_cons]
          simp [goSpace]
        rw [htake, hdrop]
        rw [fields_cons, if_pos (by simp [goSpace])]
        rw [ih (fun x hx => hne x (List.mem_cons_of_mem _ hx))
          (fun x hx => hns x (List.mem_cons_of_mem _ hx))]

theorem rnt_joinSpace :
    ∀ (ts : List Str), (∀ t ∈ ts, t ≠ []) →
      (∀ t ∈ ts, ∀ c ∈ t, reWordChar c = true) →
      (∀ t ∈ ts, t.all Char.isDigit = false) →
      replaceNumericTokens (joinSpace ts) = joinSpace ts := by
  intro ts
  induction ts with
  | nil => intro _ _ _; rw [joinSpace_nil, replaceNumericTokens_nil]
  | cons t ts' ih =>
    intro hne hword hnum
    have htne := hne t (List.mem_cons_self _ _)
    have htword := hword t (List.mem_cons_self _ _)
    have htnum := hnum t (List.mem_cons_self _ _)
    cases ts' with
    | nil =>
      rw [joinSpace_single]
      cases t with
      | nil => exact absurd rfl htne
      | cons c cs =>
        rw [replaceNumericTokens_cons]
        have hc : reWordChar c = true := htword c (List.mem_cons_self _ _)
        rw [if_pos hc]
        have htake : (c :: cs).takeWhile reWordChar = c :: cs :=
          List.takeWhile_eq_self_iff.mpr htword
        have hdrop : (c :: cs).dropWhile reWordChar = [] :=
          List.dropWhile_eq_nil_iff.mpr htword
        rw [htake, htnum, hdrop, replaceNumericTokens_nil]
        simp
    | cons t' r =>
      rw [joinSpace_cons2]
      cases t with
      | nil => exact absurd rfl htne
      | cons c cs =>
        rw [List.cons_append, replaceNumericTokens_cons]
        have hc : reWordChar c = true := htword c (List.mem_cons_self _ _)
        rw [if_pos hc]
        have htake : (c :: (cs ++ ' ' :: joinSpace (t' :: r))).takeWhile reWordChar =
            c :: cs := by
          rw [← List.cons_append, takeWhile_append_all _ htword, List.takeWhile_cons]
          simp [reWordChar]
        have hdrop : (c :: (cs ++ ' ' :: joinSpace (t' :: r))).dropWhile reWordChar =
            ' ' :: joinSpace (t' :: r) := by
          rw [← List.cons_append, dropWhile_append_all _ htword, List.dropWhile_cons]
          simp [reWordChar]
        rw [htake, htnum, hdrop]
        have hsp : reWordChar ' ' = false := by decide
        rw [replaceNumericTokens_cons, hsp, if_neg Bool.false_ne_true]
        rw [ih (fun x hx => hne x (List.mem_cons_of_mem _ hx))
          (fun x hx => hword x (List.mem_cons_of_mem _ hx))
          (fun x hx => hnum x (List.mem_cons_of_mem _ hx))]
        simp

theorem contains_eq_false_of_not_mem {l : List Str} {a : Str} (h : ¬ a ∈ l) :
    l.contains a = false := by
  induction l with
  | nil => rfl
  | cons x xs ih =>
    have hax : ¬ (a == x) = true := by
      intro hcontra
      exact h (by rw [beq_iff_eq.mp hcontra]; exact List.mem_cons_self _ _)
    have hxs : ¬ a ∈ xs := fun hc => h (List.mem_cons_of_mem _ hc)
    simp only [List.contains_cons, Bool.or_eq_false_iff]
    constructor
    · cases hbe : a == x
      · rfl
      · exact absurd hbe hax
    · exact ih hxs

/-- C5 (amended): the normalization pipeline is idempotent on every text whose
produced terms are each fixed points of the stemmer, not stopwords, and not
purely numeric: for such texts, re-normalizing the space-joined term sequence
yields the identical sequence. In general idempotence fails, because a produced
term can stem further, can become a stopword, or can be purely numeric. -/
theorem processText_idempotent_conditional (text : Str)
    (hfix : ∀ t ∈ ProcessText text, stem t = t)
    (hstop : ∀ t ∈ ProcessText text, ¬ t ∈ stopWords)
    (hnum : ∀ t ∈ ProcessText text, t.all Char.isDigit = false) :
    ProcessText (joinSpace (ProcessText text)) = ProcessText text := by
  have hterm : ∀ t ∈ ProcessText text,
      t ≠ [] ∧ (∀ c ∈ t, reWordChar c = true) ∧ toLowerStr t = t := by
    intro t ht
    unfold ProcessText stemming at ht
    obtain ⟨t1, ht1, hstem⟩ := List.mem_map.mp ht
    unfold caseFolding at ht1
    obtain ⟨w, hw, hfold⟩ := List.mem_map.mp ht1
    unfold removeStopwords at hw
    have hwf : w ∈ fields (removePunctuationsAndNumbers text) := (List.mem_filter.mp hw).1
    obtain ⟨hwne, hwprops⟩ :=
      fields_props (removePunctuationsAndNumbers text).length
        (removePunctuationsAndNumbers text) le_rfl w hwf
    have hwword : ∀ c ∈ w, reWordChar c = true := by
      intro c hc
      obtain ⟨hns, hmem⟩ := hwprops c hc
      have hmem2 := trimSpace_subset c hmem
      rcases replNum_chars (replacePunct text).length (replacePunct text) false le_rfl c
          hmem2 with hmem3 | hsp
      · unfold replacePunct at hmem3
        obtain ⟨c0, _, hc0⟩ := List.mem_map.mp hmem3
        by_cases hcond : (reWordChar c0 || reSpace c0) = true
        · rw [if_pos hcond] at hc0
          subst hc0
          rcases Bool.or_eq_true _ _ |>.mp hcond with h1 | h1
          · exact h1
          · rw [reSpace_goSpace h1] at hns
            exact absurd hns (by simp)
        · rw [if_neg hcond] at hc0
          subst hc0
          have : goSpace ' ' = true := by decide
          rw [this] at hns
          exact absurd hns (by simp)
      · subst hsp
        have : goSpace ' ' = true := by decide
        rw [this] at hns
        exact absurd hns (by simp)
    have ht1word : ∀ c ∈ t1, reWordChar c = true := by
      intro c hc
      rw [← hfold] at hc
      unfold toLowerStr at hc
      obtain ⟨c0, hc0mem, hc0⟩ := List.mem_map.mp hc
      rw [← hc0]
      exact reWordChar_toLower (hwword c0 hc0mem)
    have ht1low : toLowerStr t1 = t1 := by
      rw [← hfold]
      unfold toLowerStr
      rw [List.map_map]
      apply List.map_congr_left
      intro c _
      exact toLowerChar_idem c
    have ht1ne : t1 ≠ [] := by
      rw [← hfold]
      unfold toLowerStr
      intro hcontra
      exact hwne (List.map_eq_nil.mp hcontra)
    refine ⟨?_, ?_, ?_⟩
    · rw [← hstem]
      exact (stem_nonempty t1 ht1ne).1
    · intro c hc
      rw [← hstem] at hc
      exact ht1word c (stem_subset t1 c hc)
    · rw [← hstem]
      have hsub : ∀ c ∈ stem t1, c ∈ t1 := stem_subset t1
      unfold toLowerStr
      have : (stem t1).map toLowerChar = (stem t1).map id := by
        apply List.map_congr_left
        intro c hc
        have hct1 : c ∈ t1 := hsub c hc
        have : toLowerChar c = c := by
          have h2 : t1.map toLowerChar = t1 := ht1low
          have h3 : ∀ x ∈ t1, ∃ y ∈ t1, toLowerChar y = x := by
            intro x hx
            conv at hx => rw [← h2]
            obtain ⟨y, hy, hyx⟩ := List.mem_map.mp hx
            exact ⟨y, hy, hyx⟩
          obtain ⟨y, _, hyc⟩ := h3 c hct1
          rw [← hyc]
          exact toLowerChar_idem y
        rw [this]
        rfl
      rw [this, List.map_id]
  have hne : ∀ t ∈ ProcessText text, t ≠ [] := fun t ht => (hterm t ht).1
  have hword : ∀ t ∈ ProcessText text, ∀ c ∈ t, reWordChar c = true :=
    fun t ht => (hterm t ht).2.1
  have hlow : ∀ t ∈ ProcessText text, toLowerStr t = t := fun t ht => (hterm t ht).2.2
  have hnospace : ∀ t ∈ ProcessText text, ∀ c ∈ t, goSpace c = false :=
    fun t ht c hc => word_not_goSpace (hword t ht c hc)
  have h1 : replacePunct (joinSpace (ProcessText text)) = joinSpace (ProcessText text) := by
    apply replacePunct_id
    intro c hc
    rcases joinSpace_chars c hc with ⟨t, ht, hct⟩ | hsp
    · exact Or.inl (hword t ht c hct)
    · subst hsp
      exact Or.inr (by decide)
  have h2 : replNum false (joinSpace (ProcessText text)) = joinSpace (ProcessText text) := by
    rw [(replNum_eq_claim (joinSpace (ProcessText text)).length
      (joinSpace (ProcessText text)) le_rfl).1]
    exact rnt_joinSpace (ProcessText text) hne hword hnum
  have h3 : trimSpace (joinSpace (ProcessText text)) = joinSpace (ProcessText text) := by
    apply trimSpace_eq_self
    · intro c hc
      obtain ⟨t, ht, hct⟩ := joinSpace_head_mem hne hc
      exact word_not_goSpace (hword t ht c hct)
    · intro c hc
      obtain ⟨t, ht, hct⟩ := joinSpace_last_mem hne hc
      exact word_not_goSpace (hword t ht c hct)
  have h4 : removePunctuationsAndNumbers (joinSpace (ProcessText text)) =
      joinSpace (ProcessText text) := by
    unfold removePunctuationsAndNumbers
    rw [h1, h2, h3]
  have h5 : fields (joinSpace (ProcessText text)) = ProcessText text :=
    fields_joinSpace (ProcessText text) hne hnospace
  have h6 : removeStopwords (joinSpace (ProcessText text)) = ProcessText text := by
    unfold removeStopwords
    rw [h5]
    apply List.filter_eq_self.mpr
    intro t ht
    rw [hlow t ht]
    rw [contains_eq_false_of_not_mem (hstop t ht)]
    rfl
  have h7 : caseFolding (ProcessText text) = ProcessText text := by
    unfold caseFolding
    have : (ProcessText text).map toLowerStr = (ProcessText text).map id :=
      List.map_congr_left (fun t ht => hlow t ht)
    rw [this, List.map_id]
  have h8 : stemming (ProcessText text) = ProcessText text := by
    unfold stemming
    have : (ProcessText text).map stem = (ProcessText text).map id :=
      List.map_congr_left (fun t ht => hfix t ht)
    rw [this, List.map_id]
  conv_lhs => rw [ProcessText, h4, h6, h7, h8]

theorem processText_idempotent_conditional_witness :
    (∀ t ∈ ProcessText (str "harga rumah"), stem t = t) ∧
    (∀ t ∈ ProcessText (str "harga rumah"), ¬ t ∈ stopWords) ∧
    (∀ t ∈ ProcessText (str "harga rumah"), t.all Char.isDigit = false) ∧
    ProcessText (joinSpace (ProcessText (str "harga rumah"))) =
      ProcessText (str "harga rumah") :=
  ⟨by decide, by decide, by decide,
    processText_idempotent_conditional (str "harga rumah")
      (by decide) (by decide) (by decide)⟩

end SearchEngine
